import Mathlib

/-!
Verification of the btcaaron Taproot toolkit against its specification.

Byte strings are modelled as `List Nat` with every element below 256.
Machine-integer arithmetic is modelled on `Nat` with explicit `% 2^w`
reductions.  All definitions are executable and are translated from the
Python source (`src/btcaaron/...`); the few places where behaviour of the
external `bitcoinutils` library or of repository code absent from the
source tree is needed are modelled from the specification and marked as
such in their doc comments.
-/

/-! ## Bytes, hex, little/big endian helpers -/

/-- Every element of the list is a byte value. -/
def allBytes (l : List Nat) : Prop := ∀ b ∈ l, b < 256

instance allBytes.dec (l : List Nat) : Decidable (allBytes l) := by
  unfold allBytes; infer_instance

/-- Little-endian encoding of `n` on `k` bytes (Python `struct.pack("<I"/"<Q")`). -/
def toLE : Nat → Nat → List Nat
  | 0, _ => []
  | k + 1, n => n % 256 :: toLE k (n / 256)

/-- Little-endian decoding of a byte list to a natural number. -/
def fromLE : List Nat → Nat
  | [] => 0
  | b :: bs => b + 256 * fromLE bs

theorem toLE_length (k n : Nat) : (toLE k n).length = k := by
  induction k generalizing n with
  | zero => rfl
  | succ k ih => simp [toLE, ih]

theorem fromLE_toLE (k n : Nat) (hn : n < 256 ^ k) : fromLE (toLE k n) = n := by
  induction k generalizing n with
  | zero => simp [toLE, fromLE]; omega
  | succ k ih =>
    have hdiv : n / 256 < 256 ^ k := by
      rw [Nat.div_lt_iff_lt_mul (by norm_num)]
      calc n < 256 ^ (k + 1) := hn
        _ = 256 ^ k * 256 := by ring
    simp [toLE, fromLE, ih _ hdiv]
    omega

theorem toLE_fromLE (l : List Nat) (hl : allBytes l) : toLE l.length (fromLE l) = l := by
  induction l with
  | nil => rfl
  | cons b bs ih =>
    have hb : b < 256 := hl b (List.mem_cons_self _ _)
    have hbs : allBytes bs := fun x hx => hl x (List.mem_cons_of_mem _ hx)
    simp [toLE, fromLE]
    constructor
    · omega
    · have : (b + 256 * fromLE bs) / 256 = fromLE bs := by omega
      rw [this, ih hbs]

theorem toLE_allBytes (k n : Nat) : allBytes (toLE k n) := by
  induction k generalizing n with
  | zero => intro b hb; simp [toLE] at hb
  | succ k ih =>
    intro b hb
    simp [toLE] at hb
    rcases hb with h | h
    · omega
    · exact ih _ _ h

/-- Big-endian encoding of `n` on `k` bytes. -/
def toBE (k n : Nat) : List Nat := (toLE k n).reverse

theorem toBE_length (k n : Nat) : (toBE k n).length = k := by
  simp [toBE, toLE_length]

theorem toBE_allBytes (k n : Nat) : allBytes (toBE k n) := by
  intro b hb
  exact toLE_allBytes k n b (List.mem_reverse.mp hb)

/-- Value of one hex digit character, if valid. -/
def hexDigit (c : Char) : Option Nat :=
  let n := c.toNat
  if 48 ≤ n ∧ n ≤ 57 then some (n - 48)
  else if 97 ≤ n ∧ n ≤ 102 then some (n - 87)
  else if 65 ≤ n ∧ n ≤ 70 then some (n - 55)
  else none

/-- Decode a hex string to bytes (Python `bytes.fromhex`); `none` on bad input. -/
def hexDecodeChars : List Char → Option (List Nat)
  | [] => some []
  | [_] => none
  | c1 :: c2 :: rest => do
    let h1 ← hexDigit c1
    let h2 ← hexDigit c2
    let tail ← hexDecodeChars rest
    pure ((h1 * 16 + h2) :: tail)

def hexDecode (s : String) : Option (List Nat) := hexDecodeChars s.toList

/-- Hex digit character of a value below 16 (lowercase, Python `bytes.hex`). -/
def hexChar (n : Nat) : Char :=
  if n < 10 then Char.ofNat (48 + n) else Char.ofNat (87 + n)

/-- Encode bytes as a lowercase hex string (Python `bytes.hex`). -/
def hexEncodeChars : List Nat → List Char
  | [] => []
  | b :: bs => hexChar (b / 16 % 16) :: hexChar (b % 16) :: hexEncodeChars bs

def hexEncode (l : List Nat) : String := String.mk (hexEncodeChars l)

theorem hexEncodeChars_length (l : List Nat) :
    (hexEncodeChars l).length = 2 * l.length := by
  induction l with
  | nil => rfl
  | cons b bs ih => simp [hexEncodeChars, ih]; ring

/-! ## SHA-256 (executable model over `Nat`, values reduced mod `2^32`) -/

def w32 : Nat := 4294967296

/-- 32-bit right rotation. -/
def rotr (n x : Nat) : Nat := ((x >>> n) ||| (x <<< (32 - n))) % w32

def sha256InitH : List Nat :=
  [1779033703, 3144134277, 1013904242, 2773480762,
   1359893119, 2600822924, 528734635, 1541459225]

def sha256K : List Nat :=
  [1116352408, 1899447441, 3049323471, 3921009573, 961987163, 1508970993,
   2453635748, 2870763221, 3624381080, 310598401, 607225278, 1426881987,
   1925078388, 2162078206, 2614888103, 3248222580, 3835390401, 4022224774,
   264347078, 604807628, 770255983, 1249150122, 1555081692, 1996064986,
   2554220882, 2821834349, 2952996808, 3210313671, 3336571891, 3584528711,
   113926993, 338241895, 666307205, 773529912, 1294757372, 1396182291,
   1695183700, 1986661051, 2177026350, 2456956037, 2730485921, 2820302411,
   3259730800, 3345764771, 3516065817, 3600352804, 4094571909, 275423344,
   430227734, 506948616, 659060556, 883997877, 958139571, 1322822218,
   1537002063, 1747873779, 1955562222, 2024104815, 2227730452, 2361852424,
   2428436474, 2756734187, 3204031479, 3329325298]

/-- SHA-256 message padding: append `0x80`, zeros, then the bit length on 8 BE bytes. -/
def sha256Pad (msg : List Nat) : List Nat :=
  let l := msg.length
  let z := (119 - l % 64) % 64
  msg ++ [0x80] ++ List.replicate z 0 ++ toBE 8 (8 * l)

/-- Split a byte list into 64-byte chunks (fuel-driven; fuel `≥ length` suffices). -/
def chunks64 : Nat → List Nat → List (List Nat)
  | 0, _ => []
  | _, [] => []
  | fuel + 1, l => l.take 64 :: chunks64 fuel (l.drop 64)

/-- 64 bytes to 16 big-endian 32-bit words. -/
def bytesToWords : List Nat → List Nat
  | a :: b :: c :: d :: rest => (((a * 256 + b) * 256 + c) * 256 + d) :: bytesToWords rest
  | _ => []

/-- Message-schedule extension; the accumulator holds the words most-recent-first. -/
def sha256ExtendRev : Nat → List Nat → List Nat
  | 0, ws => ws
  | n + 1, ws =>
    let x2 := ws.getD 1 0
    let x15 := ws.getD 14 0
    let x16 := ws.getD 15 0
    let x7 := ws.getD 6 0
    let s0 := (rotr 7 x15) ^^^ (rotr 18 x15) ^^^ (x15 >>> 3)
    let s1 := (rotr 17 x2) ^^^ (rotr 19 x2) ^^^ (x2 >>> 10)
    sha256ExtendRev n (((x16 + s0 + x7 + s1) % w32) :: ws)

/-- The 64 SHA-256 compression rounds over the zipped `(K, W)` pairs. -/
def sha256Rounds : List (Nat × Nat) → Nat → Nat → Nat → Nat → Nat → Nat → Nat → Nat → List Nat
  | [], a, b, c, d, e, f, g, hh => [a, b, c, d, e, f, g, hh]
  | (k, w) :: rest, a, b, c, d, e, f, g, hh =>
    let s1 := (rotr 6 e) ^^^ (rotr 11 e) ^^^ (rotr 25 e)
    let ch := (e &&& f) ^^^ ((4294967295 - e % w32) &&& g)
    let t1 := (hh + s1 + ch + k + w) % w32
    let s0 := (rotr 2 a) ^^^ (rotr 13 a) ^^^ (rotr 22 a)
    let mj := (a &&& b) ^^^ (a &&& c) ^^^ (b &&& c)
    let t2 := (s0 + mj) % w32
    sha256Rounds rest ((t1 + t2) % w32) a b c ((d + t1) % w32) e f g

/-- One SHA-256 block compression step. -/
def sha256Compress (hs : List Nat) (block : List Nat) : List Nat :=
  let ws := (sha256ExtendRev 48 (bytesToWords block).reverse).reverse
  let out := sha256Rounds (sha256K.zip ws)
    (hs.getD 0 0) (hs.getD 1 0) (hs.getD 2 0) (hs.getD 3 0)
    (hs.getD 4 0) (hs.getD 5 0) (hs.getD 6 0) (hs.getD 7 0)
  (hs.zip out).map (fun p => (p.1 + p.2) % w32)

/-- SHA-256 of a byte list, as 32 bytes. -/
def sha256 (msg : List Nat) : List Nat :=
  let padded := sha256Pad msg
  let hs := (chunks64 padded.length padded).foldl sha256Compress sha256InitH
  (hs.map (toBE 4)).flatten

theorem sha256Rounds_length (l : List (Nat × Nat)) (a b c d e f g hh : Nat) :
    (sha256Rounds l a b c d e f g hh).length = 8 := by
  induction l generalizing a b c d e f g hh with
  | nil => rfl
  | cons p rest ih => obtain ⟨k, w⟩ := p; simpa [sha256Rounds] using ih _ _ _ _ _ _ _ _

theorem sha256Compress_length (hs block : List Nat) (h8 : hs.length = 8) :
    (sha256Compress hs block).length = 8 := by
  simp [sha256Compress, List.length_zip, h8, sha256Rounds_length]

theorem sha256_foldl_length (blocks : List (List Nat)) (hs : List Nat) (h8 : hs.length = 8) :
    (blocks.foldl sha256Compress hs).length = 8 := by
  induction blocks generalizing hs with
  | nil => simpa
  | cons b bs ih => exact ih _ (sha256Compress_length _ _ h8)

/-- SHA-256 digests are 32 bytes long. -/
theorem sha256_length (msg : List Nat) : (sha256 msg).length = 32 := by
  have h8 : ((chunks64 (sha256Pad msg).length (sha256Pad msg)).foldl
      sha256Compress sha256InitH).length = 8 :=
    sha256_foldl_length _ _ rfl
  simp only [sha256, List.length_flatten, List.map_map]
  rw [List.map_congr_left (g := fun _ => 4) (by intro x _; simp [toBE_length])]
  simp [List.map_const, h8]

/-- SHA-256 digests consist of byte values. -/
theorem sha256_allBytes (msg : List Nat) : allBytes (sha256 msg) := by
  intro b hb
  simp only [sha256, List.mem_flatten, List.mem_map] at hb
  obtain ⟨l, ⟨x, _, rfl⟩, hbl⟩ := hb
  exact toBE_allBytes 4 x b hbl

/-! ## Taproot math (`src/btcaaron/tree/tapmath.py`) -/

/-- UTF-8 bytes of an ASCII string (Python `str.encode()`); tags are ASCII. -/
def strBytes (s : String) : List Nat := s.toList.map Char.toNat

/-- `tagged_hash`: BIP 340 tagged hash `SHA256(SHA256(tag) || SHA256(tag) || data)`. -/
def taggedHash (tag : String) (data : List Nat) : List Nat :=
  let tagDigest := sha256 (strBytes tag)
  sha256 (tagDigest ++ tagDigest ++ data)

theorem taggedHash_length (tag : String) (data : List Nat) :
    (taggedHash tag data).length = 32 := sha256_length _

theorem taggedHash_allBytes (tag : String) (data : List Nat) :
    allBytes (taggedHash tag data) := sha256_allBytes _

/-- `compact_size`: Bitcoin variable-length integer encoding. -/
def compactSize (n : Nat) : List Nat :=
  if n < 0xFD then [n]
  else if n ≤ 0xFFFF then 0xFD :: toLE 2 n
  else if n ≤ 0xFFFFFFFF then 0xFE :: toLE 4 n
  else 0xFF :: toLE 8 n

/-- `tapleaf_hash`: `TaggedHash("TapLeaf", leaf_version || compact_size(len) || script)`. -/
def tapleafHash (script : List Nat) (leafVersion : Nat) : List Nat :=
  taggedHash "TapLeaf" (leafVersion :: (compactSize script.length ++ script))

theorem tapleafHash_length (script : List Nat) (v : Nat) :
    (tapleafHash script v).length = 32 := taggedHash_length _ _

theorem tapleafHash_allBytes (script : List Nat) (v : Nat) :
    allBytes (tapleafHash script v) := taggedHash_allBytes _ _

/-- Lexicographic byte-string comparison (Python `bytes.__gt__`). -/
def lexGtBytes : List Nat → List Nat → Bool
  | _ :: _, [] => true
  | [], _ => false
  | a :: as, b :: bs => if b < a then true else if a < b then false else lexGtBytes as bs

theorem lexGtBytes_asymm : ∀ a b : List Nat, lexGtBytes a b = true → lexGtBytes b a = false := by
  intro a
  induction a with
  | nil => intro b hb; cases b <;> simp_all [lexGtBytes]
  | cons x xs ih =>
    intro b hb
    cases b with
    | nil => simp [lexGtBytes]
    | cons y ys =>
      simp only [lexGtBytes] at hb ⊢
      by_cases h1 : y < x
      · have h2 : ¬ x < y := by omega
        simp [h1, h2]
      · by_cases h2 : x < y
        · simp [h1, h2] at hb
        · simp [h1, h2] at hb ⊢
          exact ih _ hb

theorem lexGtBytes_eq_of_not_gt :
    ∀ a b : List Nat, lexGtBytes a b = false → lexGtBytes b a = false → a = b := by
  intro a
  induction a with
  | nil => intro b h1 h2; cases b <;> simp_all [lexGtBytes]
  | cons x xs ih =>
    intro b h1 h2
    cases b with
    | nil => simp_all [lexGtBytes]
    | cons y ys =>
      simp only [lexGtBytes] at h1 h2
      by_cases ha : y < x
      · simp [ha] at h1
      · by_cases hb : x < y
        · simp [ha, hb] at h2
        · simp [ha, hb] at h1 h2
          have hxy : x = y := by omega
          subst hxy
          rw [ih _ h1 h2]

/-- `tapbranch_hash`: BIP 341 branch hash; the pair is sorted lexicographically
before concatenation.  (The Python code first checks both inputs are 32 bytes;
every call site below passes 32-byte hashes, as proved where needed.) -/
def tapbranchHash (l r : List Nat) : List Nat :=
  if lexGtBytes l r then taggedHash "TapBranch" (r ++ l)
  else taggedHash "TapBranch" (l ++ r)

theorem tapbranchHash_comm (a b : List Nat) : tapbranchHash a b = tapbranchHash b a := by
  unfold tapbranchHash
  rcases hab : lexGtBytes a b with _ | _
  · rcases hba : lexGtBytes b a with _ | _
    · have heq := lexGtBytes_eq_of_not_gt a b hab hba
      subst heq; simp
    · simp [hab, hba]
  · have hba := lexGtBytes_asymm a b hab
    simp [hab, hba]

theorem tapbranchHash_length (a b : List Nat) : (tapbranchHash a b).length = 32 := by
  unfold tapbranchHash; split <;> exact taggedHash_length _ _

theorem tapbranchHash_allBytes (a b : List Nat) : allBytes (tapbranchHash a b) := by
  unfold tapbranchHash; split <;> exact taggedHash_allBytes _ _

/-- One pass of the `compute_merkle_root` while-loop: combine adjacent pairs,
carrying an odd trailing element up unchanged. -/
def pairUp : List (List Nat) → List (List Nat)
  | [] => []
  | [a] => [a]
  | a :: b :: rest => tapbranchHash a b :: pairUp rest

/-- The `while len(level) > 1` loop of `compute_merkle_root`, fuel-driven
(fuel `≥ initial length` suffices, as proved below). -/
def merkleLevels : Nat → List (List Nat) → List (List Nat)
  | 0, level => level
  | fuel + 1, level => if level.length ≤ 1 then level else merkleLevels fuel (pairUp level)

/-- `compute_merkle_root`: build the Taproot Merkle root from leaf hashes by
iterative level-by-level pairing; `none` models the two `ValueError` raises. -/
def computeMerkleRoot (leafHashes : List (List Nat)) : Option (List Nat) :=
  if leafHashes = [] then none
  else if leafHashes.all (fun x => x.length == 32) then
    some ((merkleLevels leafHashes.length leafHashes).headD [])
  else none

/-- The sibling collected by one pass of the `compute_merkle_proof` loop. -/
def proofStep (level : List (List Nat)) (j : Nat) : List (List Nat) :=
  if j % 2 = 0 then
    if j + 1 < level.length then [level.getD (j + 1) []] else []
  else
    [level.getD (j - 1) []]

/-- The loop of `compute_merkle_proof`, fuel-driven like `merkleLevels`. -/
def merkleProofLoop : Nat → List (List Nat) → Nat → List (List Nat)
  | 0, _, _ => []
  | fuel + 1, level, j =>
    if level.length ≤ 1 then []
    else proofStep level j ++ merkleProofLoop fuel (pairUp level) (j / 2)

/-- `compute_merkle_proof`: sibling path for the leaf at `leafIndex`; `none`
models the index-out-of-range `ValueError`. -/
def computeMerkleProof (leafHashes : List (List Nat)) (leafIndex : Nat) :
    Option (List (List Nat)) :=
  if leafIndex < leafHashes.length then
    some (merkleProofLoop leafHashes.length leafHashes leafIndex)
  else none

/-- `compute_control_block`: version byte with parity, internal key, then the
concatenated proof; `none` models the `ValueError` raises. -/
def computeControlBlock (internalKey : List Nat) (leafHashes : List (List Nat))
    (leafIndex : Nat) (isOdd : Bool) (leafVersion : Nat) : Option (List Nat) :=
  if internalKey.length = 32 then
    (computeMerkleProof leafHashes leafIndex).map (fun proof =>
      ((leafVersion &&& 0xFE) ||| (if isOdd then 1 else 0)) :: (internalKey ++ proof.flatten))
  else none

/-! ## Merkle loop lemmas -/

theorem getD_mem {α : Type} : ∀ (l : List α) (j : Nat) (d : α), j < l.length → l.getD j d ∈ l := by
  intro l
  induction l with
  | nil => intro j d hj; simp at hj
  | cons a as ih =>
    intro j d hj
    cases j with
    | zero => simp
    | succ k =>
      simp only [List.getD_cons_succ]
      exact List.mem_cons_of_mem _ (ih k d (by simpa using hj))

theorem pairUp_length (l : List (List Nat)) : (pairUp l).length = (l.length + 1) / 2 := by
  induction l using pairUp.induct with
  | case1 => simp [pairUp]
  | case2 a => simp [pairUp]
  | case3 a b rest ih => simp [pairUp, ih]; omega

theorem pairUp_length32 : ∀ (l : List (List Nat)), (∀ y ∈ l, y.length = 32) →
    ∀ x ∈ pairUp l, x.length = 32
  | [], _, x, hx => by simp [pairUp] at hx
  | [a], hl, x, hx => by
      simp [pairUp] at hx; subst hx; exact hl _ (by simp)
  | a :: b :: rest, hl, x, hx => by
      simp only [pairUp, List.mem_cons] at hx
      rcases hx with rfl | hx
      · exact tapbranchHash_length a b
      · exact pairUp_length32 rest (fun y hy => hl y (by simp [hy])) x hx

theorem pairUp_getD (l : List (List Nat)) : ∀ j : Nat, j < l.length →
    (pairUp l).getD (j / 2) [] =
      List.foldl tapbranchHash (l.getD j []) (proofStep l j) := by
  induction l using pairUp.induct with
  | case1 => intro j hj; simp at hj
  | case2 a =>
    intro j hj
    have hj0 : j = 0 := by simpa using hj
    subst hj0
    simp [pairUp, proofStep]
  | case3 a b rest ih =>
    intro j hj
    match j with
    | 0 =>
      have h1 : (0:Nat) + 1 < (a :: b :: rest).length := by
        simp only [List.length_cons]; omega
      simp [pairUp, proofStep, h1]
    | 1 =>
      simp [pairUp, proofStep]
      exact tapbranchHash_comm a b
    | (k+2) =>
      have hps : proofStep (a :: b :: rest) (k + 2) = proofStep rest k := by
        unfold proofStep
        have hm : (k + 2) % 2 = k % 2 := by omega
        rw [hm]
        by_cases he : k % 2 = 0
        · by_cases hlt : k + 1 < rest.length
          · have hlt2 : k + 2 + 1 < (a :: b :: rest).length := by
              simp only [List.length_cons]; omega
            rw [if_pos he, if_pos he, if_pos hlt2, if_pos hlt]
            rfl
          · have hlt2 : ¬ (k + 2 + 1 < (a :: b :: rest).length) := by
              simp only [List.length_cons]; omega
            rw [if_pos he, if_pos he, if_neg hlt2, if_neg hlt]
        · have hidx : k + 2 - 1 = (k - 1) + 2 := by omega
          rw [if_neg he, if_neg he, hidx]
          rfl
      have hdiv : (k + 2) / 2 = k / 2 + 1 := by omega
      rw [hdiv, hps]
      simp only [pairUp, List.getD_cons_succ]
      exact ih k (by simpa using hj)

theorem merkleLevels_foldl (fuel : Nat) :
    ∀ (level : List (List Nat)) (j : Nat), j < level.length → level.length ≤ fuel →
    (merkleLevels fuel level).headD [] =
      List.foldl tapbranchHash (level.getD j []) (merkleProofLoop fuel level j) := by
  induction fuel with
  | zero => intro level j hj hle; omega
  | succ fuel ih =>
    intro level j hj hle
    by_cases hlen : level.length ≤ 1
    · have hj0 : j = 0 := by omega
      subst hj0
      simp only [merkleLevels, merkleProofLoop, if_pos hlen, List.foldl_nil]
      cases level with
      | nil => simp at hj
      | cons x xs => simp
    · simp only [merkleLevels, merkleProofLoop, if_neg hlen]
      rw [List.foldl_append, ← pairUp_getD level j hj]
      exact ih (pairUp level) (j / 2) (by rw [pairUp_length]; omega)
        (by rw [pairUp_length]; omega)

theorem merkleProofLoop_length32 (fuel : Nat) :
    ∀ (level : List (List Nat)) (j : Nat), j < level.length →
      (∀ x ∈ level, x.length = 32) →
      ∀ x ∈ merkleProofLoop fuel level j, x.length = 32 := by
  induction fuel with
  | zero => intro level j _ _ x hx; simp [merkleProofLoop] at hx
  | succ fuel ih =>
    intro level j hj hl x hx
    by_cases hlen : level.length ≤ 1
    · simp [merkleProofLoop, hlen] at hx
    · simp only [merkleProofLoop, if_neg hlen, List.mem_append] at hx
      rcases hx with hx | hx
      · unfold proofStep at hx
        split_ifs at hx with he hlt
        · rw [List.mem_singleton] at hx; subst hx
          exact hl _ (getD_mem _ _ _ hlt)
        · simp at hx
        · rw [List.mem_singleton] at hx; subst hx
          exact hl _ (getD_mem _ _ _ (by omega))
      · exact ih (pairUp level) (j / 2)
          (by rw [pairUp_length]; omega) (pairUp_length32 level hl) x hx

theorem merkleProofLoop_single (fuel : Nat) (level : List (List Nat)) (j : Nat)
    (h1 : level.length ≤ 1) : merkleProofLoop fuel level j = [] := by
  cases fuel <;> simp [merkleProofLoop, h1]

theorem flatten_length_32 (ps : List (List Nat)) (hp : ∀ x ∈ ps, x.length = 32) :
    ps.flatten.length = 32 * ps.length := by
  induction ps with
  | nil => simp
  | cons p ps ih =>
    simp only [List.flatten_cons, List.length_append, List.length_cons]
    rw [hp p (by simp), ih (fun x hx => hp x (by simp [hx]))]
    ring

/-- C7: for every non-empty list of 32-byte leaf hashes and every index
`i < |L|`, folding `tapbranch_hash` over the leaf hash and the sibling hashes
returned by `compute_merkle_proof`, in order, reconstructs exactly the root
`compute_merkle_root` computes. -/
theorem merkleProof_reconstructs_root (l : List (List Nat)) (i : Nat)
    (h0 : l ≠ []) (h32 : ∀ x ∈ l, x.length = 32) (hi : i < l.length) :
    ∃ proof, computeMerkleProof l i = some proof ∧
      computeMerkleRoot l = some (List.foldl tapbranchHash (l.getD i []) proof) := by
  refine ⟨merkleProofLoop l.length l i, ?_, ?_⟩
  · rw [computeMerkleProof, if_pos hi]
  · have hall : l.all (fun x => x.length == 32) = true := by
      rw [List.all_eq_true]; intro x hx; simpa using h32 x hx
    rw [computeMerkleRoot, if_neg h0, if_pos hall]
    rw [merkleLevels_foldl l.length l i hi (le_refl _)]

theorem merkleProof_reconstructs_root_witness :
    (([List.replicate 32 0, List.replicate 32 1, List.replicate 32 2] :
        List (List Nat)) ≠ []) ∧
    (∀ x ∈ ([List.replicate 32 0, List.replicate 32 1, List.replicate 32 2] :
        List (List Nat)), x.length = 32) ∧
    1 < ([List.replicate 32 0, List.replicate 32 1, List.replicate 32 2] :
        List (List Nat)).length ∧
    ∃ proof, computeMerkleProof
        [List.replicate 32 0, List.replicate 32 1, List.replicate 32 2] 1 = some proof ∧
      computeMerkleRoot [List.replicate 32 0, List.replicate 32 1, List.replicate 32 2] =
        some (List.foldl tapbranchHash
          ([List.replicate 32 0, List.replicate 32 1, List.replicate 32 2].getD 1 []) proof) :=
  ⟨by decide, by decide, by decide,
   merkleProof_reconstructs_root _ 1 (by decide) (by decide) (by decide)⟩

/-- C6: the control block for leaf `i` is
`(leaf_version & 0xFE | y_parity) || internal_key || merkle_proof(i)`; its
first byte masked with `0xFE` is `0xC0`, its length is `33 + 32·depth(i)`
(`depth(i)` being the number of proof hashes), and for a single-leaf tree the
proof part is empty (33 bytes). -/
theorem controlBlock_shape (key : List Nat) (leafHashes : List (List Nat))
    (i : Nat) (isOdd : Bool)
    (hk : key.length = 32) (h32 : ∀ x ∈ leafHashes, x.length = 32)
    (hi : i < leafHashes.length) :
    ∃ proof cb,
      computeMerkleProof leafHashes i = some proof ∧
      computeControlBlock key leafHashes i isOdd 0xC0 = some cb ∧
      cb = ((0xC0 &&& 0xFE) ||| (if isOdd then 1 else 0)) :: (key ++ proof.flatten) ∧
      cb.headD 0 &&& 0xFE = 0xC0 ∧
      cb.length = 33 + 32 * proof.length ∧
      (leafHashes.length = 1 → cb.length = 33) := by
  have hproof : computeMerkleProof leafHashes i =
      some (merkleProofLoop leafHashes.length leafHashes i) := by
    rw [computeMerkleProof, if_pos hi]
  refine ⟨merkleProofLoop leafHashes.length leafHashes i,
    ((0xC0 &&& 0xFE) ||| (if isOdd then 1 else 0)) ::
      (key ++ (merkleProofLoop leafHashes.length leafHashes i).flatten),
    hproof, ?_, rfl, ?_, ?_, ?_⟩
  · rw [computeControlBlock, if_pos hk, hproof]
    rfl
  · cases isOdd <;> simp only [List.headD_cons] <;> decide
  · have h32p : ∀ x ∈ merkleProofLoop leafHashes.length leafHashes i, x.length = 32 :=
      merkleProofLoop_length32 leafHashes.length leafHashes i hi h32
    simp only [List.length_cons, List.length_append, hk,
      flatten_length_32 _ h32p]
    omega
  · intro h1
    rw [merkleProofLoop_single _ _ _ (by omega)]
    simp [hk]

theorem controlBlock_shape_witness :
    (List.replicate 32 7 : List Nat).length = 32 ∧
    (∀ x ∈ ([List.replicate 32 9] : List (List Nat)), x.length = 32) ∧
    0 < ([List.replicate 32 9] : List (List Nat)).length ∧
    ∃ proof cb,
      computeMerkleProof [List.replicate 32 9] 0 = some proof ∧
      computeControlBlock (List.replicate 32 7) [List.replicate 32 9] 0 true 0xC0 = some cb ∧
      cb = ((0xC0 &&& 0xFE) ||| 1) :: (List.replicate 32 7 ++ proof.flatten) ∧
      cb.headD 0 &&& 0xFE = 0xC0 ∧
      cb.length = 33 + 32 * proof.length ∧
      (([List.replicate 32 9] : List (List Nat)).length = 1 → cb.length = 33) :=
  ⟨by decide, by decide, by decide,
   controlBlock_shape (List.replicate 32 7) [List.replicate 32 9] 0 true
     (by decide) (by decide) (by decide)⟩

/-! ## Tree shapes: iterative pairing vs the spec's balanced recursive split -/

/-- Fuel-driven core of the balanced recursive split (fuel `≥ length`
suffices). -/
def specSplitRootAux : Nat → List (List Nat) → List Nat
  | _, [] => []
  | _, [x] => x
  | 0, _ :: _ :: _ => []
  | fuel + 1, x :: y :: rest =>
    tapbranchHash
      (specSplitRootAux fuel ((x :: y :: rest).take ((x :: y :: rest).length / 2)))
      (specSplitRootAux fuel ((x :: y :: rest).drop ((x :: y :: rest).length / 2)))

/-- The balanced recursive split of spec §4.3, stated on leaf hashes:
`mid = L/2`, build both halves, combine with `tapbranch_hash`.  This is the
claim-side definition used for the C3 refinement comparison. -/
def specSplitRoot (l : List (List Nat)) : List Nat := specSplitRootAux l.length l

theorem specSplitRootAux_congr (f1 : Nat) :
    ∀ (f2 : Nat) (l : List (List Nat)), l.length ≤ f1 → l.length ≤ f2 →
      specSplitRootAux f1 l = specSplitRootAux f2 l := by
  induction f1 with
  | zero =>
    intro f2 l h1 _
    have : l = [] := List.length_eq_zero.mp (by omega)
    subst this
    cases f2 <;> rfl
  | succ f1 ih =>
    intro f2 l h1 h2
    match l with
    | [] => cases f2 <;> rfl
    | [x] => cases f2 <;> rfl
    | x :: y :: rest =>
      cases f2 with
      | zero => simp at h2
      | succ g =>
        have hlen : (x :: y :: rest).length = rest.length + 2 := by simp
        have htk : ((x :: y :: rest).take ((x :: y :: rest).length / 2)).length ≤ f1 := by
          simp only [List.length_take, List.length_cons]
          simp only [List.length_cons] at h1
          omega
        have htk2 : ((x :: y :: rest).take ((x :: y :: rest).length / 2)).length ≤ g := by
          simp only [List.length_take, List.length_cons]
          simp only [List.length_cons] at h2
          omega
        have hdr : ((x :: y :: rest).drop ((x :: y :: rest).length / 2)).length ≤ f1 := by
          simp only [List.length_drop, List.length_cons]
          simp only [List.length_cons] at h1
          omega
        have hdr2 : ((x :: y :: rest).drop ((x :: y :: rest).length / 2)).length ≤ g := by
          simp only [List.length_drop, List.length_cons]
          simp only [List.length_cons] at h2
          omega
        show tapbranchHash _ _ = tapbranchHash _ _
        rw [ih g _ htk htk2, ih g _ hdr hdr2]

/-- Nested script-tree structure handed to the external library
(`TaprootProgram._build_balanced_tree` builds nested lists; a two-element
list is a node of two leaves). -/
inductive ScriptTree where
  | leaf : List Nat → ScriptTree
  | node : ScriptTree → ScriptTree → ScriptTree

/-- `TaprootProgram._build_balanced_tree`: balanced mid-split of the flat
script list.  The empty case is unreachable (`_compile` only builds a tree
for a non-empty script list). -/
def buildBalancedTree : List (List Nat) → ScriptTree
  | [] => .leaf []
  | [s] => .leaf s
  | [s, t] => .node (.leaf s) (.leaf t)
  | s :: t :: u :: rest =>
    .node
      (buildBalancedTree ((s :: t :: u :: rest).take ((s :: t :: u :: rest).length / 2)))
      (buildBalancedTree ((s :: t :: u :: rest).drop ((s :: t :: u :: rest).length / 2)))
termination_by l => l.length
decreasing_by
  · simp only [List.length_take, List.length_cons]; omega
  · simp only [List.length_drop, List.length_cons]; omega

/-- Modelled from the spec: the BIP-341 Merkle root the external library
derives from the nested script tree — tapleaf hashes at the leaves,
`tapbranch_hash` at the nodes (§4.3). -/
def scriptTreeRoot : ScriptTree → List Nat
  | .leaf s => tapleafHash s 0xC0
  | .node l r => tapbranchHash (scriptTreeRoot l) (scriptTreeRoot r)

theorem merkleLevels_of_le_one (f : Nat) (level : List (List Nat))
    (h1 : level.length ≤ 1) : merkleLevels f level = level := by
  cases f <;> simp [merkleLevels, h1]

theorem merkleLevels_congr (f1 : Nat) :
    ∀ (f2 : Nat) (level : List (List Nat)), level.length ≤ f1 → level.length ≤ f2 →
      merkleLevels f1 level = merkleLevels f2 level := by
  induction f1 with
  | zero =>
    intro f2 level h1 _
    have : level = [] := List.length_eq_zero.mp (by omega)
    subst this
    rw [merkleLevels_of_le_one f2 [] (by simp)]
    rfl
  | succ f1 ih =>
    intro f2 level h1 h2
    by_cases hlen : level.length ≤ 1
    · rw [merkleLevels_of_le_one _ _ hlen, merkleLevels_of_le_one _ _ hlen]
    · cases f2 with
      | zero => omega
      | succ g =>
        simp only [merkleLevels, if_neg hlen]
        exact ih g (pairUp level) (by rw [pairUp_length]; omega)
          (by rw [pairUp_length]; omega)

theorem pairUp_append (l1 l2 : List (List Nat)) (he : l1.length % 2 = 0) :
    pairUp (l1 ++ l2) = pairUp l1 ++ pairUp l2 := by
  induction l1 using pairUp.induct with
  | case1 => simp [pairUp]
  | case2 a => simp at he
  | case3 a b rest ih =>
    have he2 : rest.length % 2 = 0 := by
      simp only [List.length_cons] at he; omega
    simp only [List.cons_append, pairUp]
    exact congrArg _ (ih he2)

/-- The head of the fully iterated level loop, as used by `compute_merkle_root`. -/
def iterRoot (l : List (List Nat)) : List Nat := (merkleLevels l.length l).headD []

theorem iterRoot_pairUp (l : List (List Nat)) (h2 : 2 ≤ l.length) :
    iterRoot l = iterRoot (pairUp l) := by
  unfold iterRoot
  obtain ⟨m, hm⟩ : ∃ m, l.length = m + 1 := ⟨l.length - 1, by omega⟩
  rw [hm]
  simp only [merkleLevels, if_neg (show ¬ l.length ≤ 1 by omega)]
  exact congrArg (fun s => s.headD [])
    (merkleLevels_congr m ((pairUp l).length) (pairUp l)
      (by rw [pairUp_length]; omega) (le_refl _))

theorem iterRoot_append_pow (k : Nat) :
    ∀ t d : List (List Nat), t.length = 2 ^ k → d.length = 2 ^ k →
      iterRoot (t ++ d) = tapbranchHash (iterRoot t) (iterRoot d) := by
  induction k with
  | zero =>
    intro t d ht hd
    match t, d, ht, hd with
    | [a], [b], _, _ => simp [iterRoot, merkleLevels, pairUp]
  | succ k ih =>
    intro t d ht hd
    have hp1 : (1:Nat) ≤ 2 ^ k := Nat.one_le_two_pow
    have htl : 2 ≤ t.length := by rw [ht, pow_succ]; omega
    have hdl : 2 ≤ d.length := by rw [hd, pow_succ]; omega
    have happ : 2 ≤ (t ++ d).length := by rw [List.length_append]; omega
    rw [iterRoot_pairUp (t ++ d) happ,
      pairUp_append t d (by rw [ht, pow_succ]; omega),
      ih (pairUp t) (pairUp d)
        (by rw [pairUp_length, ht, pow_succ]; omega)
        (by rw [pairUp_length, hd, pow_succ]; omega),
      ← iterRoot_pairUp t htl, ← iterRoot_pairUp d hdl]

theorem specSplitRoot_of_two_le (l : List (List Nat)) (h2 : 2 ≤ l.length) :
    specSplitRoot l =
      tapbranchHash (specSplitRoot (l.take (l.length / 2)))
        (specSplitRoot (l.drop (l.length / 2))) := by
  match l, h2 with
  | x :: y :: rest, _ =>
    show specSplitRootAux (rest.length + 2) (x :: y :: rest) = _
    show tapbranchHash
      (specSplitRootAux (rest.length + 1)
        ((x :: y :: rest).take ((x :: y :: rest).length / 2)))
      (specSplitRootAux (rest.length + 1)
        ((x :: y :: rest).drop ((x :: y :: rest).length / 2))) = _
    unfold specSplitRoot
    rw [specSplitRootAux_congr (rest.length + 1) _ _
        (by simp only [List.length_take, List.length_cons]; omega) (le_refl _),
      specSplitRootAux_congr (rest.length + 1) _ _
        (by simp only [List.length_drop, List.length_cons]; omega) (le_refl _)]

theorem iterRoot_pow_eq_specSplit (k : Nat) :
    ∀ l : List (List Nat), l.length = 2 ^ k → iterRoot l = specSplitRoot l := by
  induction k with
  | zero =>
    intro l hl
    match l, hl with
    | [a], _ =>
      simp only [iterRoot, merkleLevels, specSplitRoot]
      rfl
  | succ k ih =>
    intro l hl
    have hp1 : (1:Nat) ≤ 2 ^ k := Nat.one_le_two_pow
    have h2 : 2 ≤ l.length := by rw [hl, pow_succ]; omega
    have hhalf : l.length / 2 = 2 ^ k := by rw [hl, pow_succ]; omega
    have ht : (l.take (l.length / 2)).length = 2 ^ k := by
      rw [List.length_take, hhalf, hl, pow_succ]; omega
    have hd : (l.drop (l.length / 2)).length = 2 ^ k := by
      rw [List.length_drop, hhalf, hl, pow_succ]; omega
    have hsplit : l.take (l.length / 2) ++ l.drop (l.length / 2) = l :=
      List.take_append_drop _ _
    rw [specSplitRoot_of_two_le l h2, ← ih _ ht, ← ih _ hd]
    conv_lhs => rw [← hsplit]
    exact iterRoot_append_pow k _ _ ht hd

theorem buildBalancedTree_root : ∀ (scripts : List (List Nat)), scripts ≠ [] →
    scriptTreeRoot (buildBalancedTree scripts) =
      specSplitRoot (scripts.map (fun s => tapleafHash s 0xC0)) := by
  intro scripts
  induction scripts using buildBalancedTree.induct with
  | case1 => intro h; cases h rfl
  | case2 s => intro _; simp [buildBalancedTree, scriptTreeRoot, specSplitRoot, specSplitRootAux]
  | case3 s t =>
    intro _
    rw [List.map_cons, List.map_cons, List.map_nil,
      specSplitRoot_of_two_le _ (by simp)]
    simp [buildBalancedTree, scriptTreeRoot, specSplitRoot, specSplitRootAux]
  | case4 s t u rest ih1 ih2 =>
    intro _
    have hne1 : (s :: t :: u :: rest).take ((s :: t :: u :: rest).length / 2) ≠ [] := by
      intro hcon
      have := congrArg List.length hcon
      simp only [List.length_take, List.length_cons, List.length_nil] at this
      omega
    have hne2 : (s :: t :: u :: rest).drop ((s :: t :: u :: rest).length / 2) ≠ [] := by
      intro hcon
      have := congrArg List.length hcon
      simp only [List.length_drop, List.length_cons, List.length_nil] at this
      omega
    rw [buildBalancedTree]
    show tapbranchHash
      (scriptTreeRoot (buildBalancedTree
        ((s :: t :: u :: rest).take ((s :: t :: u :: rest).length / 2))))
      (scriptTreeRoot (buildBalancedTree
        ((s :: t :: u :: rest).drop ((s :: t :: u :: rest).length / 2)))) = _
    rw [ih1 hne1, ih2 hne2,
      specSplitRoot_of_two_le ((s :: t :: u :: rest).map (fun s => tapleafHash s 0xC0))
        (by simp),
      List.length_map, ← List.map_take, ← List.map_drop]

set_option maxRecDepth 8000 in
set_option maxHeartbeats 2000000 in
/-- C3 counterexample: for three concrete 32-byte leaf hashes,
`compute_merkle_root` (iterative level pairing, odd leaf carried up) does not
equal the spec's balanced recursive split (`mid = L/2`). -/
theorem merkleRoot_not_specSplit_at_three :
    computeMerkleRoot
        [List.replicate 32 0, List.replicate 32 17, List.replicate 32 34] ≠
      some (specSplitRoot
        [List.replicate 32 0, List.replicate 32 17, List.replicate 32 34]) := by
  decide

/-- C3 amended: the iterative `compute_merkle_root` agrees with the balanced
recursive split exactly on power-of-two leaf counts (so on the 1/2/4-leaf
trees the code exercises), and the nested tree built by
`_build_balanced_tree` realizes the recursive-split shape for every `L`;
for other `L` (e.g. `L = 3`) the two shapes differ. -/
theorem merkleRoot_matches_specSplit_on_pow2 :
    (∀ (k : Nat) (l : List (List Nat)), (∀ x ∈ l, x.length = 32) → l.length = 2 ^ k →
      computeMerkleRoot l = some (specSplitRoot l)) ∧
    (∀ scripts : List (List Nat), scripts ≠ [] →
      scriptTreeRoot (buildBalancedTree scripts) =
        specSplitRoot (scripts.map (fun s => tapleafHash s 0xC0))) := by
  constructor
  · intro k l h32 hl
    have h0 : l ≠ [] := by
      intro hcon; subst hcon
      simp only [List.length_nil] at hl
      have : (1:Nat) ≤ 2 ^ k := Nat.one_le_two_pow
      omega
    have hall : l.all (fun x => x.length == 32) = true := by
      rw [List.all_eq_true]; intro x hx; simpa using h32 x hx
    rw [computeMerkleRoot, if_neg h0, if_pos hall]
    rw [show (merkleLevels l.length l).headD [] = iterRoot l from rfl,
      iterRoot_pow_eq_specSplit k l hl]
  · exact buildBalancedTree_root

theorem merkleRoot_matches_specSplit_on_pow2_witness :
    (∀ x ∈ ([List.replicate 32 1, List.replicate 32 2] : List (List Nat)), x.length = 32) ∧
    ([List.replicate 32 1, List.replicate 32 2] : List (List Nat)).length = 2 ^ 1 ∧
    ([[0x51]] : List (List Nat)) ≠ [] ∧
    computeMerkleRoot [List.replicate 32 1, List.replicate 32 2] =
      some (specSplitRoot [List.replicate 32 1, List.replicate 32 2]) ∧
    scriptTreeRoot (buildBalancedTree [[0x51]]) =
      specSplitRoot ([[0x51]].map (fun s => tapleafHash s 0xC0)) :=
  ⟨by decide, by decide, by decide,
   merkleRoot_matches_specSplit_on_pow2.1 1 _ (by decide) (by decide),
   merkleRoot_matches_specSplit_on_pow2.2 [[0x51]] (by decide)⟩

/-! ## Leaf model and tree compiler (`src/btcaaron/tree/{leaf,builder,program}.py`) -/

/-- Kind-specific leaf parameters (the `params` dict of a raw leaf). -/
inductive LeafParams where
  | hashlock (preimageHash : List Nat)
  | checksig (pubkey : List Nat)
  | multisig (threshold : Nat) (pubkeys : List (List Nat))
  | csvTimelock (sequenceValue : Nat) (pubkey : List Nat)
  | custom (script : List Nat)
deriving DecidableEq

/-- The `script_type` string stored with each leaf. -/
def scriptTypeName : LeafParams → String
  | .hashlock _ => "HASHLOCK"
  | .checksig _ => "CHECKSIG"
  | .multisig _ _ => "MULTISIG"
  | .csvTimelock _ _ => "CSV_TIMELOCK"
  | .custom _ => "CUSTOM"

/-- A raw leaf as appended by the `TapTree` fluent methods. -/
structure RawLeaf where
  label : String
  index : Nat
  params : LeafParams
deriving DecidableEq

/-- Modelled from the spec (§4.2, external script encoder): a data push —
single length prefix up to 75 bytes, `OP_PUSHDATA1`/`OP_PUSHDATA2` beyond. -/
def pushData (d : List Nat) : List Nat :=
  if d.length ≤ 75 then d.length :: d
  else if d.length ≤ 255 then 0x4C :: d.length :: d
  else 0x4D :: (toLE 2 d.length ++ d)

/-- Minimal little-endian script-number bytes of a positive integer
(strip the trailing zero bytes of an 8-byte little-endian encoding). -/
def toLEmin (n : Nat) : List Nat :=
  ((toLE 8 n).reverse.dropWhile (fun b => b == 0)).reverse

/-- Modelled from the spec (§4.2): minimal integer encoding — `OP_0` for zero,
`OP_1..OP_16` for 1–16, else a pushed little-endian script number with a sign
byte when the top bit is set. -/
def scriptNumPush (n : Nat) : List Nat :=
  if n = 0 then [0x00]
  else if n ≤ 16 then [0x50 + n]
  else
    let le := toLEmin n
    pushData (if 0x80 ≤ (le.getLastD 0) then le ++ [0x00] else le)

/-- The per-pubkey `P_i OP_CHECKSIGADD` blocks of a MULTISIG tapscript. -/
def multisigBlocks (pks : List (List Nat)) : List Nat :=
  (pks.map (fun pk => pushData pk ++ [0xBA])).flatten

/-- The `MULTISIG` tapscript
`OP_0 P1 OP_CHECKSIGADD … Pn OP_CHECKSIGADD OP_k OP_EQUAL` (§4.3). -/
def multisigScript (k : Nat) (pks : List (List Nat)) : List Nat :=
  0x00 :: (multisigBlocks pks ++ [0x50 + k, 0x87])

/-- The per-kind tapscript compilation of `TaprootProgram._compile` (§4.3);
the byte-level op encoding is the external library's, modelled from §4.2. -/
def compileLeafScript : LeafParams → List Nat
  | .hashlock ph => 0xA8 :: (pushData ph ++ [0x88, 0x51])
  | .checksig pk => pushData pk ++ [0xAC]
  | .multisig k pks => multisigScript k pks
  | .csvTimelock seqv pk => scriptNumPush seqv ++ [0xB2, 0x75] ++ pushData pk ++ [0xAC]
  | .custom s => s

/-- The compiled leaf descriptor (`LeafDescriptor` in `tree/leaf.py`);
`tapleafHashStored` is the descriptor's `tapleaf_hash` string field. -/
structure LeafDescriptor where
  label : String
  index : Nat
  scriptType : String
  scriptBytes : List Nat
  params : LeafParams
  tapleafHashStored : String
deriving DecidableEq

/-- Python-dict insertion: replace in place if the key exists, else append. -/
def dictInsert {κ β : Type} [DecidableEq κ] (m : List (κ × β)) (k : κ) (v : β) :
    List (κ × β) :=
  if (m.lookup k).isSome then
    m.map (fun p => if p.1 = k then (k, v) else p)
  else m ++ [(k, v)]

/-- The label map, index map and script list built by `TaprootProgram._compile`. -/
structure CompiledProgram where
  leafDescriptors : List (String × LeafDescriptor)
  leafByIndex : List (Nat × LeafDescriptor)
  scripts : List (List Nat)
deriving DecidableEq

/-- The descriptor-construction loop of `TaprootProgram._compile`: every
descriptor is stored with `tapleaf_hash=""`, and descriptors are keyed by
label in a dict (duplicates replace silently). -/
def compileLeaves (leaves : List RawLeaf) : CompiledProgram :=
  leaves.foldl (fun acc leaf =>
    let script := compileLeafScript leaf.params
    let d : LeafDescriptor :=
      { label := leaf.label, index := leaf.index,
        scriptType := scriptTypeName leaf.params, scriptBytes := script,
        params := leaf.params, tapleafHashStored := "" }
    { leafDescriptors := dictInsert acc.leafDescriptors leaf.label d,
      leafByIndex := dictInsert acc.leafByIndex leaf.index d,
      scripts := acc.scripts ++ [script] })
    ⟨[], [], []⟩

/-- `TapTree` fluent-builder state (`tree/builder.py`). -/
structure TapTreeState where
  leaves : List RawLeaf
  leafCounter : Nat

/-- `TapTree.checksig`: append a CHECKSIG leaf under the given label. -/
def tapTreeChecksig (st : TapTreeState) (pk : List Nat) (label : String) : TapTreeState :=
  { leaves := st.leaves ++ [{ label := label, index := st.leafCounter, params := .checksig pk }],
    leafCounter := st.leafCounter + 1 }

/-- `TapTree.build`: hand the raw leaves to `TaprootProgram`, which compiles
them (no duplicate-label check anywhere on this path). -/
def tapTreeBuild (st : TapTreeState) : CompiledProgram := compileLeaves st.leaves

/-- C2: two leaves sharing the label `"x"` do *not* raise a build-time error:
`build()` returns a program whose label map silently kept only the second
leaf (the one with index 1), while both scripts entered the tree. -/
theorem duplicateLabel_silently_replaces :
    (tapTreeBuild (tapTreeChecksig
        (tapTreeChecksig ⟨[], 0⟩ (List.replicate 32 1) "x")
        (List.replicate 32 2) "x")).scripts.length = 2 ∧
    ((tapTreeBuild (tapTreeChecksig
        (tapTreeChecksig ⟨[], 0⟩ (List.replicate 32 1) "x")
        (List.replicate 32 2) "x")).leafDescriptors.lookup "x").map
      (fun d => (d.index, d.params)) =
      some (1, .checksig (List.replicate 32 2)) ∧
    (tapTreeBuild (tapTreeChecksig
        (tapTreeChecksig ⟨[], 0⟩ (List.replicate 32 1) "x")
        (List.replicate 32 2) "x")).leafDescriptors.length = 1 := by
  decide

theorem dictInsert_preserve {κ β : Type} [DecidableEq κ]
    (P : β → Prop) (m : List (κ × β)) (k : κ) (v : β)
    (hm : ∀ p ∈ m, P p.2) (hv : P v) :
    ∀ p ∈ dictInsert m k v, P p.2 := by
  intro p hp
  unfold dictInsert at hp
  split_ifs at hp with hs
  · rw [List.mem_map] at hp
    obtain ⟨q, hq, hpq⟩ := hp
    by_cases hqk : q.1 = k
    · simp [hqk] at hpq; subst hpq; exact hv
    · simp [hqk] at hpq; subst hpq; exact hm q hq
  · rw [List.mem_append] at hp
    rcases hp with hp | hp
    · exact hm p hp
    · simp at hp; subst hp; exact hv

/-- C5: every descriptor produced by `_compile` stores the empty string in
its `tapleaf_hash` field — never the hex of the BIP-341 tapleaf hash of its
compiled script (which is 64 characters long). -/
theorem tapleafHash_field_always_empty (leaves : List RawLeaf) :
    ∀ p ∈ (compileLeaves leaves).leafDescriptors,
      p.2.tapleafHashStored = "" ∧
      p.2.tapleafHashStored ≠ hexEncode (tapleafHash p.2.scriptBytes 0xC0) := by
  have hex64 : ∀ s : List Nat, (hexEncode (tapleafHash s 0xC0)).length = 64 := by
    intro s
    show (hexEncodeChars (tapleafHash s 0xC0)).length = 64
    rw [hexEncodeChars_length, tapleafHash_length]
  have main : ∀ p ∈ (compileLeaves leaves).leafDescriptors,
      p.2.tapleafHashStored = "" := by
    suffices hgen : ∀ (acc : CompiledProgram),
        (∀ p ∈ acc.leafDescriptors, p.2.tapleafHashStored = "") →
        ∀ p ∈ (leaves.foldl (fun acc leaf =>
          let script := compileLeafScript leaf.params
          let d : LeafDescriptor :=
            { label := leaf.label, index := leaf.index,
              scriptType := scriptTypeName leaf.params, scriptBytes := script,
              params := leaf.params, tapleafHashStored := "" }
          { leafDescriptors := dictInsert acc.leafDescriptors leaf.label d,
            leafByIndex := dictInsert acc.leafByIndex leaf.index d,
            scripts := acc.scripts ++ [script] }) acc).leafDescriptors,
          p.2.tapleafHashStored = "" by
      intro p hp
      exact hgen ⟨[], [], []⟩ (by intro q hq; simp at hq) p hp
    induction leaves with
    | nil => intro acc hacc p hp; exact hacc p hp
    | cons leaf rest ih =>
      intro acc hacc p hp
      refine ih _ ?_ p hp
      exact dictInsert_preserve (fun d : LeafDescriptor => d.tapleafHashStored = "") _ _ _ hacc rfl
  intro p hp
  refine ⟨main p hp, ?_⟩
  rw [main p hp]
  intro hcon
  have := congrArg String.length hcon
  rw [hex64] at this
  simp at this

theorem tapleafHash_field_always_empty_witness :
    ∃ p ∈ (compileLeaves
        [RawLeaf.mk "h" 0 (.checksig (List.replicate 32 1))]).leafDescriptors,
      p.2.tapleafHashStored = "" ∧
      p.2.tapleafHashStored ≠ hexEncode (tapleafHash p.2.scriptBytes 0xC0) := by
  have hp : ("h", LeafDescriptor.mk "h" 0 "CHECKSIG"
        (compileLeafScript (.checksig (List.replicate 32 1)))
        (.checksig (List.replicate 32 1)) "") ∈
      (compileLeaves
        [RawLeaf.mk "h" 0 (.checksig (List.replicate 32 1))]).leafDescriptors := by
    decide
  exact ⟨_, hp, tapleafHash_field_always_empty _ _ hp⟩

/-! ## Spend builder (`src/btcaaron/spend/builder.py`) -/

/-- `SpendBuilder` mutable state: inputs, outputs, unlock data, options.
Keys are represented by their x-only public key bytes. -/
structure SpendBuilderState where
  isKeypath : Bool
  leaf : Option LeafDescriptor
  utxos : List (String × Nat × Nat)
  outputs : List (String × Nat)
  preimage : Option String
  signatures : List (List Nat)
  customWitness : Option (List String)
  seqOverride : Option Nat
deriving DecidableEq

/-- `SpendBuilder.from_utxo`: replace the UTXO list with the single given
UTXO, accepting the `"txid:vout"` shorthand.  A UTXO left without a `vout`
is modelled as an error (the Python code would fail when building inputs). -/
def fromUtxo (st : SpendBuilderState) (txid : String) (vout : Option Nat)
    (sats : Nat) : Option SpendBuilderState :=
  if txid.contains ':' ∧ vout = none then
    match txid.splitOn ":" with
    | [t, vs] =>
      match vs.toNat? with
      | some v => some { st with utxos := [(t, v, sats)] }
      | none => none
    | _ => none
  else
    match vout with
    | some v => some { st with utxos := [(txid, v, sats)] }
    | none => none

/-- `SpendBuilder.from_utxos`: replace the UTXO list wholesale. -/
def fromUtxos (st : SpendBuilderState) (us : List (String × Nat × Nat)) :
    SpendBuilderState :=
  { st with utxos := us }

/-- `SpendBuilder.to`: append one output. -/
def spendTo (st : SpendBuilderState) (address : String) (sats : Nat) :
    SpendBuilderState :=
  { st with outputs := st.outputs ++ [(address, sats)] }

/-- `SpendBuilder.sequence`: set the explicit nSequence override. -/
def setSequence (st : SpendBuilderState) (v : Nat) : SpendBuilderState :=
  { st with seqOverride := some v }

/-- C10: `from_utxo` (and `from_utxos`) replaces the whole input list while
leaving outputs, unlock data and the sequence override untouched, whereas
`to()` appends to the output list while leaving everything else untouched:
two `from_utxo` calls leave one input, two `to()` calls leave two outputs. -/
theorem fromUtxo_replaces_spendTo_appends
    (st : SpendBuilderState) (t1 t2 : String) (v1 v2 s1 s2 : Nat)
    (a1 a2 : String) (o1 o2 : Nat) :
    ∃ st1 st2,
      fromUtxo st t1 (some v1) s1 = some st1 ∧
      fromUtxo st1 t2 (some v2) s2 = some st2 ∧
      st1.utxos = [(t1, v1, s1)] ∧
      st2.utxos = [(t2, v2, s2)] ∧
      st2.outputs = st.outputs ∧ st2.preimage = st.preimage ∧
      st2.signatures = st.signatures ∧ st2.customWitness = st.customWitness ∧
      st2.seqOverride = st.seqOverride ∧ st2.leaf = st.leaf ∧
      st2.isKeypath = st.isKeypath ∧
      (fromUtxos st2 [(t1, v1, s1), (t2, v2, s2)]).utxos = [(t1, v1, s1), (t2, v2, s2)] ∧
      (spendTo (spendTo st a1 o1) a2 o2).outputs = st.outputs ++ [(a1, o1), (a2, o2)] ∧
      (spendTo (spendTo st a1 o1) a2 o2).utxos = st.utxos ∧
      (spendTo (spendTo st a1 o1) a2 o2).preimage = st.preimage ∧
      (spendTo (spendTo st a1 o1) a2 o2).signatures = st.signatures ∧
      (spendTo (spendTo st a1 o1) a2 o2).seqOverride = st.seqOverride := by
  refine ⟨{ st with utxos := [(t1, v1, s1)] }, { st with utxos := [(t2, v2, s2)] },
    by simp [fromUtxo], by simp [fromUtxo], rfl, rfl, rfl, rfl, rfl, rfl, rfl, rfl, rfl,
    rfl, by simp [spendTo], rfl, rfl, rfl, rfl⟩

/-! nSequence policy (C8) -/

/-- Modelled from the spec: the external library's `TxInput` default
nSequence (`DEFAULT_TX_SEQUENCE = 0xFFFFFFFF`), kept when the builder does
not set a sequence on the input. -/
def defaultTxSequence : Nat := 0xFFFFFFFF

/-- Modelled from the spec (§4.3): the external
`Sequence(TYPE_RELATIVE_TIMELOCK, v).for_input_sequence()` encodes a block
count as the integer itself; time-based values already carry the `0x400000`
flag from `TapTree.timelock`. -/
def forInputSequence (v : Nat) : Nat := v

/-- `sequence_value` of a CSV leaf's params (only read for CSV leaves). -/
def paramsSequenceValue : LeafParams → Nat
  | .csvTimelock v _ => v
  | _ => 0

/-- Per-input nSequence chosen by `_build_script_path` (lines 337–348). -/
def scriptPathSequence (st : SpendBuilderState) (leaf : LeafDescriptor) : Nat :=
  match st.seqOverride with
  | some v => v
  | none =>
    if leaf.scriptType = "CSV_TIMELOCK" then
      forInputSequence (paramsSequenceValue leaf.params)
    else 0xFFFFFFFD

/-- Per-input nSequence chosen by `_build_keypath` (lines 283–287): with no
override the `TxInput` keeps the library default. -/
def keypathSequence (st : SpendBuilderState) : Nat :=
  match st.seqOverride with
  | some v => v
  | none => defaultTxSequence

/-- Per-input nSequence chosen by `_build_unsigned_tx` (lines 247–264, the
PSBT path): the key-path branch keeps the library default, the script-path
branch mirrors `_build_script_path`. -/
def unsignedTxSequence (st : SpendBuilderState) : Nat :=
  if st.isKeypath then
    match st.seqOverride with
    | some v => v
    | none => defaultTxSequence
  else
    match st.seqOverride, st.leaf with
    | some v, _ => v
    | none, some leaf =>
      if leaf.scriptType = "CSV_TIMELOCK" then
        forInputSequence (paramsSequenceValue leaf.params)
      else 0xFFFFFFFD
    | none, none => 0xFFFFFFFD

/-- Statement plumbing: update the override, key-path flag and leaf of a
builder state at once. -/
def withSeqLeaf (st : SpendBuilderState) (so : Option Nat) (kp : Bool)
    (lf : Option LeafDescriptor) : SpendBuilderState :=
  { st with seqOverride := so, isKeypath := kp, leaf := lf }

/-- C8 (behaviour as implemented): the explicit override always wins; a CSV
script-path input gets the encoded sequence from the leaf params; any other
script-path input defaults to `0xFFFFFFFD`; but the key-path builds (direct
and PSBT) keep the library default `0xFFFFFFFF`, not `0xFFFFFFFD`. -/
theorem nSequence_policy_behavior :
    (∀ (st : SpendBuilderState) (leaf : LeafDescriptor) (v : Nat),
      scriptPathSequence { st with seqOverride := some v } leaf = v ∧
      keypathSequence { st with seqOverride := some v } = v ∧
      unsignedTxSequence { st with seqOverride := some v } = v) ∧
    (∀ (st : SpendBuilderState) (label : String) (idx seqv : Nat) (sb pk : List Nat),
      scriptPathSequence { st with seqOverride := none }
          (LeafDescriptor.mk label idx "CSV_TIMELOCK" sb (.csvTimelock seqv pk) "") =
        forInputSequence seqv ∧
      unsignedTxSequence (withSeqLeaf st none false
          (some (LeafDescriptor.mk label idx "CSV_TIMELOCK" sb
            (.csvTimelock seqv pk) ""))) = forInputSequence seqv) ∧
    (∀ (st : SpendBuilderState) (label : String) (idx : Nat) (sb pk : List Nat),
      scriptPathSequence { st with seqOverride := none }
          (LeafDescriptor.mk label idx "CHECKSIG" sb (.checksig pk) "") = 0xFFFFFFFD ∧
      scriptPathSequence { st with seqOverride := none }
          (LeafDescriptor.mk label idx "HASHLOCK" sb (.hashlock pk) "") = 0xFFFFFFFD ∧
      scriptPathSequence { st with seqOverride := none }
          (LeafDescriptor.mk label idx "MULTISIG" sb (.multisig 1 [pk]) "") = 0xFFFFFFFD ∧
      scriptPathSequence { st with seqOverride := none }
          (LeafDescriptor.mk label idx "CUSTOM" sb (.custom sb) "") = 0xFFFFFFFD ∧
      unsignedTxSequence (withSeqLeaf st none false
          (some (LeafDescriptor.mk label idx "CHECKSIG" sb (.checksig pk) ""))) =
        0xFFFFFFFD) ∧
    (∀ st : SpendBuilderState,
      keypathSequence { st with seqOverride := none } = 0xFFFFFFFF ∧
      unsignedTxSequence (withSeqLeaf st none true st.leaf) = 0xFFFFFFFF) ∧
    (0xFFFFFFFF : Nat) ≠ 0xFFFFFFFD := by
  refine ⟨?_, ?_, ?_, ?_, by decide⟩
  · intro st leaf v
    refine ⟨rfl, rfl, ?_⟩
    unfold unsignedTxSequence
    by_cases hk : st.isKeypath <;> simp [hk]
  · intro st label idx seqv sb pk
    exact ⟨rfl, rfl⟩
  · intro st label idx sb pk
    exact ⟨rfl, rfl, rfl, rfl, rfl⟩
  · intro st
    exact ⟨rfl, rfl⟩

/-! ## Multisig witness ordering (C9) -/

/-- `_tapscript_pubkey_order` (psbt.py): scan the 32-byte pushes of a
tapscript in appearance order, honoring `OP_PUSH32`, `OP_PUSHDATA1` and
`OP_PUSHDATA2`; fuel-driven translation of the index-based while loop
(fuel `≥ length` suffices, each step consumes at least one byte). -/
def tapscriptPubkeyOrderAux : Nat → List Nat → List (List Nat)
  | 0, _ => []
  | _, [] => []
  | fuel + 1, b :: rest =>
    if b = 0x20 ∧ 32 ≤ rest.length then
      rest.take 32 :: tapscriptPubkeyOrderAux fuel (rest.drop 32)
    else if b ≤ 0x4B then tapscriptPubkeyOrderAux fuel (rest.drop b)
    else if b = 0x4C then
      match rest with
      | [] => []
      | n :: rest2 =>
        if n = 32 ∧ 32 ≤ rest2.length then
          rest2.take 32 :: tapscriptPubkeyOrderAux fuel (rest2.drop n)
        else tapscriptPubkeyOrderAux fuel (rest2.drop n)
    else if b = 0x4D then
      match rest with
      | n1 :: n2 :: rest2 =>
        if n1 + 256 * n2 = 32 ∧ 32 ≤ rest2.length then
          rest2.take 32 :: tapscriptPubkeyOrderAux fuel (rest2.drop (n1 + 256 * n2))
        else tapscriptPubkeyOrderAux fuel (rest2.drop (n1 + 256 * n2))
      | _ => tapscriptPubkeyOrderAux fuel rest
    else tapscriptPubkeyOrderAux fuel rest

def tapscriptPubkeyOrder (script : List Nat) : List (List Nat) :=
  tapscriptPubkeyOrderAux script.length script

/-- `sigs_by_pubkey` built by the MULTISIG branch of `_build_script_path`:
one dict entry per signing key, keyed by its x-only pubkey. -/
def multisigSigsByPubkey (signerPks : List (List Nat)) (sigOf : List Nat → List Nat) :
    List (List Nat × List Nat) :=
  signerPks.foldl (fun m pk => dictInsert m pk (sigOf pk)) []

/-- The signature part of the MULTISIG witness stack built by
`_build_script_path`: walk the declared pubkeys in reverse, skipping
pubkeys without a signature. -/
def multisigWitnessSigs (pubkeys : List (List Nat))
    (sigsBy : List (List Nat × List Nat)) : List (List Nat) :=
  (pubkeys.reverse).filterMap (fun pk => sigsBy.lookup pk)

/-- The full MULTISIG script-path witness stack of `_build_script_path`:
signatures, then the script, then the control block. -/
def buildMultisigWitness (pubkeys : List (List Nat))
    (sigsBy : List (List Nat × List Nat)) (script cb : List Nat) : List (List Nat) :=
  multisigWitnessSigs pubkeys sigsBy ++ [script, cb]

/-- The signature list assembled by `Psbt.finalize` for a tapleaf script:
reverse the scanned pubkey order, skipping absent signatures; fall back to
dict order when the script has no 32-byte pushes. -/
def finalizeSigList (scriptBytes : List Nat)
    (sigsByPk : List (List Nat × List Nat)) : List (List Nat) :=
  let order := tapscriptPubkeyOrder scriptBytes
  if order.isEmpty then sigsByPk.map (fun p => p.2)
  else (order.reverse).filterMap (fun pk => sigsByPk.lookup pk)

theorem pushData_of_len32 (pk : List Nat) (h32 : pk.length = 32) :
    pushData pk = 32 :: pk := by
  unfold pushData
  rw [h32]
  rfl

theorem tapAux_cons_push32 (fuel : Nat) (rest : List Nat) (h : 32 ≤ rest.length) :
    tapscriptPubkeyOrderAux (fuel + 1) (0x20 :: rest) =
      rest.take 32 :: tapscriptPubkeyOrderAux fuel (rest.drop 32) := by
  simp [tapscriptPubkeyOrderAux, h]

theorem tapAux_cons_skip (fuel : Nat) (b : Nat) (rest : List Nat)
    (h1 : ¬ (b = 0x20 ∧ 32 ≤ rest.length)) (h2 : ¬ b ≤ 0x4B)
    (h3 : ¬ b = 0x4C) (h4 : ¬ b = 0x4D) :
    tapscriptPubkeyOrderAux (fuel + 1) (b :: rest) =
      tapscriptPubkeyOrderAux fuel rest := by
  simp only [tapscriptPubkeyOrderAux]
  rw [if_neg h1, if_neg h2, if_neg h3, if_neg h4]

theorem tapAux_cons_op0 (fuel : Nat) (rest : List Nat) :
    tapscriptPubkeyOrderAux (fuel + 1) (0x00 :: rest) =
      tapscriptPubkeyOrderAux fuel rest := by
  simp [tapscriptPubkeyOrderAux]

theorem multisigBlocks_length (pks : List (List Nat))
    (h32 : ∀ pk ∈ pks, pk.length = 32) :
    (multisigBlocks pks).length = 34 * pks.length := by
  induction pks with
  | nil => rfl
  | cons pk pks ih =>
    have hpk := h32 pk (by simp)
    simp only [multisigBlocks, List.map_cons, List.flatten_cons, List.length_append]
    rw [show ((pks.map (fun pk => pushData pk ++ [0xBA])).flatten).length =
        (multisigBlocks pks).length from rfl,
      ih (fun q hq => h32 q (by simp [hq])), pushData_of_len32 pk hpk]
    simp [hpk]
    ring

theorem tapAux_blocks :
    ∀ (pks : List (List Nat)) (fuel k : Nat),
      (∀ pk ∈ pks, pk.length = 32) → 1 ≤ k → k ≤ 16 →
      (multisigBlocks pks ++ [0x50 + k, 0x87]).length ≤ fuel →
      tapscriptPubkeyOrderAux fuel (multisigBlocks pks ++ [0x50 + k, 0x87]) = pks := by
  intro pks
  induction pks with
  | nil =>
    intro fuel k _ hk1 hk16 hfuel
    simp only [multisigBlocks, List.map_nil, List.flatten_nil, List.nil_append,
      List.length_cons, List.length_nil] at hfuel ⊢
    obtain ⟨f, rfl⟩ : ∃ f, fuel = f + 2 := ⟨fuel - 2, by omega⟩
    rw [show (f + 2) = (f + 1) + 1 from rfl,
      tapAux_cons_skip _ _ _ (by intro h; omega) (by omega) (by omega) (by omega),
      tapAux_cons_skip _ _ _ (by intro h; omega) (by omega) (by omega) (by omega)]
    cases f <;> rfl
  | cons pk pks ih =>
    intro fuel k h32 hk1 hk16 hfuel
    have hpk := h32 pk (by simp)
    have hrest : ∀ q ∈ pks, q.length = 32 := fun q hq => h32 q (by simp [hq])
    have hblen : (multisigBlocks (pk :: pks)).length = 34 + (multisigBlocks pks).length := by
      rw [multisigBlocks_length _ h32, multisigBlocks_length _ hrest]
      simp only [List.length_cons]
      ring
    have hfuel2 : 34 + (multisigBlocks pks ++ [0x50 + k, 0x87]).length ≤ fuel := by
      simp only [List.length_append] at hfuel ⊢
      omega
    have hshape : multisigBlocks (pk :: pks) ++ [0x50 + k, 0x87] =
        0x20 :: (pk ++ (0xBA :: (multisigBlocks pks ++ [0x50 + k, 0x87]))) := by
      simp only [multisigBlocks, List.map_cons, List.flatten_cons,
        pushData_of_len32 pk hpk]
      simp [List.append_assoc]
    rw [hshape]
    obtain ⟨f, rfl⟩ : ∃ f, fuel = f + 1 := ⟨fuel - 1, by omega⟩
    have hrlen : (pk ++ (0xBA :: (multisigBlocks pks ++ [0x50 + k, 0x87]))).length =
        33 + (multisigBlocks pks ++ [0x50 + k, 0x87]).length := by
      simp [hpk]
      omega
    rw [tapAux_cons_push32 f _ (by omega)]
    rw [show pk ++ (0xBA :: (multisigBlocks pks ++ [0x50 + k, 0x87])) =
        pk ++ ([0xBA] ++ (multisigBlocks pks ++ [0x50 + k, 0x87])) from by simp]
    rw [← hpk, List.take_left, List.drop_left]
    congr 1
    obtain ⟨f2, rfl⟩ : ∃ f2, f = f2 + 1 := ⟨f - 1, by omega⟩
    rw [show ([0xBA] ++ (multisigBlocks pks ++ [0x50 + k, 0x87])) =
        0xBA :: (multisigBlocks pks ++ [0x50 + k, 0x87]) from rfl]
    rw [tapAux_cons_skip _ _ _ (by intro h; omega) (by omega) (by omega) (by omega)]
    exact ih f2 k hrest hk1 hk16 (by omega)

/-- The pubkeys scanned from a compiled MULTISIG tapscript are exactly the
declared pubkeys, in declaration order. -/
theorem tapscriptPubkeyOrder_multisig (k : Nat) (pks : List (List Nat))
    (h32 : ∀ pk ∈ pks, pk.length = 32) (hk1 : 1 ≤ k) (hk16 : k ≤ 16) :
    tapscriptPubkeyOrder (multisigScript k pks) = pks := by
  unfold tapscriptPubkeyOrder multisigScript
  obtain ⟨f, hf⟩ : ∃ f, (0x00 :: (multisigBlocks pks ++ [0x50 + k, 0x87])).length = f + 1 :=
    ⟨(multisigBlocks pks ++ [0x50 + k, 0x87]).length, by simp⟩
  rw [hf, tapAux_cons_op0]
  refine tapAux_blocks pks f k h32 hk1 hk16 ?_
  simp only [List.length_cons] at hf
  omega

/-- C9: the MULTISIG witness built by `_build_script_path` lists signatures
in reverse declaration order of their pubkeys, skipping pubkeys without a
signature, then appends script and control block; `Psbt.finalize` recovers
the same order by scanning the tapscript's 32-byte pushes (which are exactly
the declared pubkeys) and reversing their appearance order. -/
theorem multisig_witness_order (k : Nat) (pks : List (List Nat))
    (sigsBy : List (List Nat × List Nat)) (script cb : List Nat)
    (h32 : ∀ pk ∈ pks, pk.length = 32) (hk1 : 1 ≤ k) (hk16 : k ≤ 16)
    (hne : pks ≠ []) :
    tapscriptPubkeyOrder (multisigScript k pks) = pks ∧
    finalizeSigList (multisigScript k pks) sigsBy =
      (pks.reverse).filterMap (fun pk => sigsBy.lookup pk) ∧
    buildMultisigWitness pks sigsBy script cb =
      ((pks.reverse).filterMap (fun pk => sigsBy.lookup pk)) ++ [script, cb] := by
  have horder := tapscriptPubkeyOrder_multisig k pks h32 hk1 hk16
  refine ⟨horder, ?_, rfl⟩
  simp only [finalizeSigList, horder]
  rw [if_neg (by simp [hne])]

theorem multisig_witness_order_witness :
    (∀ pk ∈ ([List.replicate 32 1, List.replicate 32 2] : List (List Nat)),
      pk.length = 32) ∧
    (1:Nat) ≤ 2 ∧ (2:Nat) ≤ 16 ∧
    ([List.replicate 32 1, List.replicate 32 2] : List (List Nat)) ≠ [] ∧
    (tapscriptPubkeyOrder (multisigScript 2 [List.replicate 32 1, List.replicate 32 2]) =
        [List.replicate 32 1, List.replicate 32 2] ∧
      finalizeSigList (multisigScript 2 [List.replicate 32 1, List.replicate 32 2])
          [(List.replicate 32 2, List.replicate 64 9)] =
        (([List.replicate 32 1, List.replicate 32 2] : List (List Nat)).reverse).filterMap
          (fun pk => [(List.replicate 32 2, List.replicate 64 9)].lookup pk) ∧
      buildMultisigWitness [List.replicate 32 1, List.replicate 32 2]
          [(List.replicate 32 2, List.replicate 64 9)] [0x51] [0xC1] =
        ((([List.replicate 32 1, List.replicate 32 2] : List (List Nat)).reverse).filterMap
          (fun pk => [(List.replicate 32 2, List.replicate 64 9)].lookup pk)) ++ [[0x51], [0xC1]]) :=
  ⟨by decide, by decide, by decide, by decide,
   multisig_witness_order 2 [List.replicate 32 1, List.replicate 32 2]
     [(List.replicate 32 2, List.replicate 64 9)] [0x51] [0xC1]
     (by decide) (by decide) (by decide) (by decide)⟩

/-! ## PSBT byte-level codec (`src/btcaaron/psbt.py`) -/

/-- `_encode_varint` (identical to `tapmath.compact_size`). -/
def encodeVarint : Nat → List Nat := compactSize

/-- `_decode_varint`, in list-consuming form: returns the value and the
remaining bytes.  (On truncated input Python's `struct.unpack_from` raises;
the consuming model reads what is there — never exercised below.) -/
def decodeVarint (data : List Nat) : Nat × List Nat :=
  match data with
  | [] => (0, [])
  | b :: rest =>
    if b < 0xFD then (b, rest)
    else if b = 0xFD then (fromLE (rest.take 2), rest.drop 2)
    else if b = 0xFE then (fromLE (rest.take 4), rest.drop 4)
    else (fromLE (rest.take 8), rest.drop 8)

theorem encodeVarint_allBytes (n : Nat) : allBytes (encodeVarint n) := by
  unfold encodeVarint compactSize
  split_ifs with h1 h2 h3
  · intro b hb; simp at hb; omega
  · intro b hb
    simp only [List.mem_cons] at hb
    rcases hb with rfl | hb
    · omega
    · exact toLE_allBytes _ _ _ hb
  · intro b hb
    simp only [List.mem_cons] at hb
    rcases hb with rfl | hb
    · omega
    · exact toLE_allBytes _ _ _ hb
  · intro b hb
    simp only [List.mem_cons] at hb
    rcases hb with rfl | hb
    · omega
    · exact toLE_allBytes _ _ _ hb

theorem decodeVarint_encodeVarint (n : Nat) (rest : List Nat) (hn : n < 2 ^ 64) :
    decodeVarint (encodeVarint n ++ rest) = (n, rest) := by
  unfold encodeVarint compactSize
  split_ifs with h1 h2 h3
  · simp [decodeVarint, h1]
  · have hlen : (toLE 2 n).length = 2 := toLE_length 2 n
    simp only [List.cons_append, decodeVarint]
    rw [if_neg (by omega)]
    simp only [if_true]
    rw [List.take_left' hlen, List.drop_left' hlen, fromLE_toLE 2 n (by omega)]
  · have hlen : (toLE 4 n).length = 4 := toLE_length 4 n
    simp only [List.cons_append, decodeVarint]
    rw [if_neg (by omega), if_neg (by omega)]
    simp only [if_true]
    rw [List.take_left' hlen, List.drop_left' hlen, fromLE_toLE 4 n (by omega)]
  · have hlen : (toLE 8 n).length = 8 := toLE_length 8 n
    simp only [List.cons_append, decodeVarint]
    rw [if_neg (by omega), if_neg (by omega), if_neg (by omega)]
    rw [List.take_left' hlen, List.drop_left' hlen, fromLE_toLE 8 n (by omega)]

/-- One serialized key-value pair: `varint(len key) || key || varint(len val) || val`. -/
def encodeKV (key value : List Nat) : List Nat :=
  encodeVarint key.length ++ key ++ (encodeVarint value.length ++ value)

/-- `_read_key_value`, in list-consuming form: `none` signals the
zero-length-key map separator (or exhausted input). -/
def readKV (data : List Nat) : Option (List Nat × List Nat) × List Nat :=
  match data with
  | [] => (none, [])
  | _ =>
    let kl := decodeVarint data
    if kl.1 = 0 then (none, kl.2)
    else
      let key := kl.2.take kl.1
      let r2 := kl.2.drop kl.1
      let vl := decodeVarint r2
      (some (key, vl.2.take vl.1), vl.2.drop vl.1)

theorem readKV_sep (rest : List Nat) : readKV (0x00 :: rest) = (none, rest) := by
  simp [readKV, decodeVarint]

theorem readKV_encodeKV (key value rest : List Nat)
    (hk : key ≠ []) (hkl : key.length < 2 ^ 64) (hvl : value.length < 2 ^ 64) :
    readKV (encodeKV key value ++ rest) = (some (key, value), rest) := by
  have hk0 : key.length ≠ 0 := by
    intro hcon; exact hk (List.length_eq_zero.mp hcon)
  unfold encodeKV
  rw [show (encodeVarint key.length ++ key ++ (encodeVarint value.length ++ value)) ++ rest =
    encodeVarint key.length ++ (key ++ (encodeVarint value.length ++ (value ++ rest))) from by
      simp [List.append_assoc]]
  rw [readKV]
  split
  · next heq =>
    rw [decodeVarint_encodeVarint key.length _ hkl] at heq
    exact absurd heq hk0
  · simp only [decodeVarint_encodeVarint key.length _ hkl]
    rw [List.take_left' rfl, List.drop_left' rfl,
      decodeVarint_encodeVarint value.length _ hvl]
    rw [List.take_left' rfl, List.drop_left' rfl]
  · intro hcon
    unfold encodeVarint compactSize at hcon
    split_ifs at hcon <;> simp at hcon

/-- `struct.pack("<q", amt)`: signed 64-bit little-endian. -/
def packInt64 (amt : Int) : List Nat := toLE 8 (amt % (2 ^ 64 : Int)).toNat

/-- `struct.unpack_from("<q", value, 0)`: signed 64-bit little-endian decode. -/
def unpackInt64 (l : List Nat) : Int :=
  let n := fromLE (l.take 8)
  if n < 2 ^ 63 then (n : Int) else (n : Int) - 2 ^ 64

theorem packInt64_length (amt : Int) : (packInt64 amt).length = 8 := toLE_length _ _

theorem packInt64_allBytes (amt : Int) : allBytes (packInt64 amt) := toLE_allBytes _ _

theorem unpackInt64_packInt64 (amt : Int) (rest : List Nat)
    (h1 : 0 ≤ amt) (h2 : amt < 2 ^ 63) :
    unpackInt64 (packInt64 amt ++ rest) = amt := by
  unfold unpackInt64 packInt64
  rw [List.take_left' (toLE_length 8 _)]
  have heq : amt % (2 ^ 64 : Int) = amt := Int.emod_eq_of_lt h1 (by omega)
  rw [heq]
  have h256 : (256:Nat) ^ 8 = 2 ^ 64 := by norm_num
  rw [fromLE_toLE 8 _ (by rw [h256]; omega)]
  rw [if_pos (by omega), Int.toNat_of_nonneg h1]

/-- Per-input PSBT data (`PsbtInput` in psbt.py).  The private signing cache
`_tapleaf_scripts_for_tweak` is not serialized and is omitted. -/
structure PsbtInputModel where
  witnessUtxo : Option (Int × List Nat)
  tapInternalKey : Option (List Nat)
  tapMerkleRoot : Option (List Nat)
  tapLeafScript : Option (List Nat × List Nat)
  tapKeySig : Option (List Nat)
  tapScriptSigs : List ((List Nat × List Nat) × List Nat)
  finalScriptWitness : Option (List (List Nat))
deriving DecidableEq

def emptyPsbtInput : PsbtInputModel := ⟨none, none, none, none, none, [], none⟩

/-- `PSBT_IN_WITNESS_UTXO` chunk of `Psbt.to_base64` (value packs the amount
as little-endian int64 followed by the var-length script pubkey). -/
def wuKVs : Option (Int × List Nat) → List (List Nat × List Nat)
  | some (amt, spk) => [([0x01], packInt64 amt ++ (encodeVarint spk.length ++ spk))]
  | none => []

/-- `PSBT_IN_TAP_INTERNAL_KEY` chunk; Python truthiness skips an empty key. -/
def ikKVs : Option (List Nat) → List (List Nat × List Nat)
  | some k => if k = [] then [] else [([0x17], k)]
  | none => []

/-- `PSBT_IN_TAP_MERKLE_ROOT` chunk; only emitted when exactly 32 bytes. -/
def mrKVs : Option (List Nat) → List (List Nat × List Nat)
  | some r => if r.length = 32 then [([0x18], r)] else []
  | none => []

/-- `PSBT_IN_TAP_LEAF_SCRIPT` chunk (control block rides in the key). -/
def lsKVs : Option (List Nat × List Nat) → List (List Nat × List Nat)
  | some (script, cb) => [(0x15 :: cb, 0xC0 :: (encodeVarint script.length ++ script))]
  | none => []

/-- `PSBT_IN_TAP_KEY_SIG` chunk; truthiness skips an empty signature. -/
def ksKVs : Option (List Nat) → List (List Nat × List Nat)
  | some s => if s = [] then [] else [([0x13], s)]
  | none => []

/-- `PSBT_IN_TAP_SCRIPT_SIG` chunks, one per (pubkey, leaf-hash) entry. -/
def ssKVs (sigs : List ((List Nat × List Nat) × List Nat)) :
    List (List Nat × List Nat) :=
  sigs.map (fun e => (0x14 :: (e.1.1 ++ e.1.2), e.2))

/-- `PSBT_IN_FINAL_SCRIPTWITNESS` chunk; truthiness skips an empty stack. -/
def fwKVs : Option (List (List Nat)) → List (List Nat × List Nat)
  | some ws => if ws = [] then [] else
      [([0x08],
        encodeVarint ws.length ++ (ws.map (fun w => encodeVarint w.length ++ w)).flatten)]
  | none => []

/-- The key-value pairs of the serialized per-input section of
`Psbt.to_base64`, in source order; Python's truthiness
(`if inp.tap_internal_key:` etc.) skips empty byte strings and lists, and a
merkle root is only emitted when it is exactly 32 bytes. -/
def inputKVs (inp : PsbtInputModel) : List (List Nat × List Nat) :=
  wuKVs inp.witnessUtxo ++ ikKVs inp.tapInternalKey ++ mrKVs inp.tapMerkleRoot ++
  lsKVs inp.tapLeafScript ++ ksKVs inp.tapKeySig ++ ssKVs inp.tapScriptSigs ++
  fwKVs inp.finalScriptWitness

/-- Serialized key-value pairs, concatenated. -/
def kvsBytes (kvs : List (List Nat × List Nat)) : List Nat :=
  (kvs.map (fun kv => encodeKV kv.1 kv.2)).flatten

/-- The serialized per-input section of `Psbt.to_base64` (the chunks above
followed by the map separator).  One note: the source writes the
internal-key chunk's value length as the constant 32 rather than `len(k)`;
the two coincide for every well-formed (32-byte) key, and an ill-formed key
would produce a corrupt frame either way. -/
def encodeInputSection (inp : PsbtInputModel) : List Nat :=
  kvsBytes (inputKVs inp) ++ [0x00]

/-- Parse the items of a serialized witness stack
(`PSBT_IN_FINAL_SCRIPTWITNESS` decode loop). -/
def witnessItems : Nat → List Nat → List (List Nat)
  | 0, _ => []
  | n + 1, data =>
    let lw := decodeVarint data
    lw.2.take lw.1 :: witnessItems n (lw.2.drop lw.1)

def parseWitnessStack (value : List Nat) : List (List Nat) :=
  let nw := decodeVarint value
  witnessItems nw.1 nw.2

/-- Dispatch one decoded key-value pair onto a `PsbtInputModel`
(the body of the per-input decode loop of `Psbt.from_base64`). -/
def applyInputKV (inp : PsbtInputModel) (kv : List Nat × List Nat) : PsbtInputModel :=
  let key := kv.1
  let value := kv.2
  if key.length = 1 then
    let kt := key.headD 0
    if kt = 0x01 then
      let amt := unpackInt64 value
      let sl := decodeVarint (value.drop 8)
      { inp with witnessUtxo := some (amt, sl.2.take sl.1) }
    else if kt = 0x17 then { inp with tapInternalKey := some (value.take 32) }
    else if kt = 0x18 then { inp with tapMerkleRoot := some (value.take 32) }
    else if kt = 0x13 then { inp with tapKeySig := some value }
    else if kt = 0x08 then { inp with finalScriptWitness := some (parseWitnessStack value) }
    else inp
  else if 33 ≤ key.length ∧ key.headD 0 = 0x15 then
    let sl := decodeVarint (value.drop 1)
    { inp with tapLeafScript := some (sl.2.take sl.1, key.drop 1) }
  else if key.length = 65 ∧ key.headD 0 = 0x14 then
    { inp with tapScriptSigs :=
        dictInsert inp.tapScriptSigs ((key.drop 1).take 32, key.drop 33) value }
  else inp

/-- The per-input decode while-loop of `Psbt.from_base64`, fuel-driven
(fuel `≥ data length` suffices: every read consumes at least one byte). -/
def parseInputLoop : Nat → List Nat → PsbtInputModel → PsbtInputModel × List Nat
  | 0, data, inp => (inp, data)
  | fuel + 1, data, inp =>
    if data = [] then (inp, [])
    else
      match readKV data with
      | (none, rest) => (inp, rest)
      | (some kv, rest) => parseInputLoop fuel rest (applyInputKV inp kv)

attribute [ext] PsbtInputModel

/-- Well-formedness of a PSBT input as produced by this codebase: field
lengths and ranges under which the serialization frame is faithful. -/
structure PsbtInputWF (inp : PsbtInputModel) : Prop where
  wu : ∀ a spk, inp.witnessUtxo = some (a, spk) →
    0 ≤ a ∧ a < 2 ^ 63 ∧ spk.length < 2 ^ 32
  ik : ∀ k, inp.tapInternalKey = some k → k.length = 32
  mr : ∀ r, inp.tapMerkleRoot = some r → r.length = 32
  ls : ∀ s cb, inp.tapLeafScript = some (s, cb) →
    32 ≤ cb.length ∧ cb.length < 2 ^ 32 ∧ s.length < 2 ^ 32
  ks : ∀ s, inp.tapKeySig = some s → s ≠ [] ∧ s.length < 2 ^ 32
  ss : ∀ e ∈ inp.tapScriptSigs,
    e.1.1.length = 32 ∧ e.1.2.length = 32 ∧ e.2.length < 2 ^ 32
  ssnd : (inp.tapScriptSigs.map Prod.fst).Nodup
  fw : ∀ ws, inp.finalScriptWitness = some ws →
    ws ≠ [] ∧ ws.length < 2 ^ 16 ∧ ∀ w ∈ ws, w.length < 2 ^ 32

theorem applyKV_witnessUtxo (st : PsbtInputModel) (amt : Int) (spk : List Nat)
    (h1 : 0 ≤ amt) (h2 : amt < 2 ^ 63) (h3 : spk.length < 2 ^ 64) :
    applyInputKV st ([0x01], packInt64 amt ++ (encodeVarint spk.length ++ spk)) =
      { st with witnessUtxo := some (amt, spk) } := by
  simp only [applyInputKV, List.length_cons, List.length_nil, List.headD_cons]
  norm_num
  rw [unpackInt64_packInt64 amt _ h1 h2,
    List.drop_left' (packInt64_length amt),
    decodeVarint_encodeVarint spk.length spk h3]
  exact ⟨rfl, by rw [List.take_length]⟩

theorem applyKV_internalKey (st : PsbtInputModel) (k : List Nat)
    (hk : k.length = 32) :
    applyInputKV st ([0x17], k) = { st with tapInternalKey := some k } := by
  simp only [applyInputKV, List.length_cons, List.length_nil, List.headD_cons]
  norm_num
  omega

theorem applyKV_merkleRoot (st : PsbtInputModel) (r : List Nat)
    (hr : r.length = 32) :
    applyInputKV st ([0x18], r) = { st with tapMerkleRoot := some r } := by
  simp only [applyInputKV, List.length_cons, List.length_nil, List.headD_cons]
  norm_num
  omega

theorem applyKV_leafScript (st : PsbtInputModel) (script cb : List Nat)
    (hcb : 32 ≤ cb.length) (hs : script.length < 2 ^ 64) :
    applyInputKV st (0x15 :: cb, 0xC0 :: (encodeVarint script.length ++ script)) =
      { st with tapLeafScript := some (script, cb) } := by
  simp only [applyInputKV, List.length_cons, List.headD_cons]
  rw [if_neg (by omega), if_pos ⟨by omega, by simp⟩]
  simp only [List.drop_succ_cons, List.drop_zero]
  rw [decodeVarint_encodeVarint script.length script hs, List.take_length]

theorem applyKV_keySig (st : PsbtInputModel) (s : List Nat) :
    applyInputKV st ([0x13], s) = { st with tapKeySig := some s } := by
  simp only [applyInputKV, List.length_cons, List.length_nil, List.headD_cons]
  norm_num

theorem applyKV_scriptSig (st : PsbtInputModel) (pk lh sig : List Nat)
    (hpk : pk.length = 32) (hlh : lh.length = 32) :
    applyInputKV st (0x14 :: (pk ++ lh), sig) =
      { st with tapScriptSigs := dictInsert st.tapScriptSigs (pk, lh) sig } := by
  simp only [applyInputKV, List.length_cons, List.length_append, List.headD_cons]
  rw [if_neg (by omega), if_neg (by intro h; omega), if_pos ⟨by omega, by simp⟩]
  simp only [List.drop_succ_cons, List.drop_zero]
  rw [List.take_left' hpk, List.drop_left' hpk]

theorem witnessItems_encoded (ws : List (List Nat))
    (hws : ∀ w ∈ ws, w.length < 2 ^ 64) :
    witnessItems ws.length ((ws.map (fun w => encodeVarint w.length ++ w)).flatten) = ws := by
  induction ws with
  | nil => rfl
  | cons w ws ih =>
    simp only [List.length_cons, List.map_cons, List.flatten_cons, witnessItems,
      List.append_assoc]
    rw [decodeVarint_encodeVarint w.length _ (hws w (by simp))]
    rw [List.take_left' rfl, List.drop_left' rfl]
    rw [ih (fun q hq => hws q (by simp [hq]))]

theorem applyKV_finalWitness (st : PsbtInputModel) (ws : List (List Nat))
    (hn : ws.length < 2 ^ 64) (hws : ∀ w ∈ ws, w.length < 2 ^ 64) :
    applyInputKV st ([0x08],
        encodeVarint ws.length ++ (ws.map (fun w => encodeVarint w.length ++ w)).flatten) =
      { st with finalScriptWitness := some ws } := by
  simp only [applyInputKV, List.length_cons, List.length_nil, List.headD_cons]
  norm_num
  unfold parseWitnessStack
  rw [decodeVarint_encodeVarint ws.length _ hn]
  rw [witnessItems_encoded ws hws]

theorem encodeVarint_length_pos (n : Nat) : 1 ≤ (encodeVarint n).length := by
  unfold encodeVarint compactSize
  split_ifs <;> simp

theorem encodeVarint_length_le (n : Nat) : (encodeVarint n).length ≤ 9 := by
  unfold encodeVarint compactSize
  split_ifs <;> simp [toLE_length]

theorem lookup_eq_none_of_not_mem_keys {κ β : Type} [DecidableEq κ]
    (m : List (κ × β)) (k : κ) (h : k ∉ m.map Prod.fst) : m.lookup k = none := by
  induction m with
  | nil => rfl
  | cons e m ih =>
    simp only [List.map_cons, List.mem_cons] at h
    push_neg at h
    obtain ⟨e1, e2⟩ := e
    have hbe : (k == e1) = false := by
      simp only [beq_eq_false_iff_ne, ne_eq]
      exact h.1
    rw [List.lookup_cons, hbe]
    exact ih h.2

theorem foldl_dictInsert_nodup {κ β : Type} [DecidableEq κ] :
    ∀ (ss : List (κ × β)) (m : List (κ × β)),
      (∀ e ∈ ss, e.1 ∉ m.map Prod.fst) → (ss.map Prod.fst).Nodup →
      ss.foldl (fun acc e => dictInsert acc e.1 e.2) m = m ++ ss := by
  intro ss
  induction ss with
  | nil => intro m _ _; simp
  | cons e ss ih =>
    intro m hnm hnd
    simp only [List.foldl_cons]
    have hlk : m.lookup e.1 = none :=
      lookup_eq_none_of_not_mem_keys m e.1 (hnm e (by simp))
    have hins : dictInsert m e.1 e.2 = m ++ [e] := by
      unfold dictInsert
      rw [hlk]
      simp
    rw [hins]
    rw [List.map_cons, List.nodup_cons] at hnd
    rw [ih (m ++ [e]) ?_ hnd.2]
    · simp
    · intro q hq
      rw [List.map_append, List.mem_append]
      push_neg
      refine ⟨hnm q (List.mem_cons_of_mem e hq), ?_⟩
      intro hcon
      rw [List.map_cons, List.map_nil, List.mem_singleton] at hcon
      exact hnd.1 (hcon ▸ List.mem_map_of_mem Prod.fst hq)

theorem foldl_applyKV_scriptSigs :
    ∀ (sigs : List ((List Nat × List Nat) × List Nat)) (st : PsbtInputModel),
      (∀ e ∈ sigs, e.1.1.length = 32 ∧ e.1.2.length = 32) →
      List.foldl applyInputKV st (ssKVs sigs) =
        { st with tapScriptSigs :=
            sigs.foldl (fun m e => dictInsert m e.1 e.2) st.tapScriptSigs } := by
  intro sigs
  induction sigs with
  | nil => intro st _; rfl
  | cons e sigs ih =>
    intro st h
    rw [show ssKVs (e :: sigs) = (0x14 :: (e.1.1 ++ e.1.2), e.2) :: ssKVs sigs from rfl]
    simp only [List.foldl_cons]
    rw [applyKV_scriptSig st e.1.1 e.1.2 e.2 (h e (by simp)).1 (h e (by simp)).2]
    rw [ih _ (fun q hq => h q (by simp [hq]))]

theorem foldl_applyKV_inputKVs (inp : PsbtInputModel) (wf : PsbtInputWF inp) :
    List.foldl applyInputKV emptyPsbtInput (inputKVs inp) = inp := by
  obtain ⟨wu, ik, mr, ls, ks, ss, fw⟩ := inp
  have h1 : List.foldl applyInputKV emptyPsbtInput (wuKVs wu) =
      ⟨wu, none, none, none, none, [], none⟩ := by
    match wu with
    | none => rfl
    | some (amt, spk) =>
      have hw := wf.wu amt spk rfl
      simp only [wuKVs, List.foldl_cons, List.foldl_nil]
      rw [applyKV_witnessUtxo emptyPsbtInput amt spk hw.1 hw.2.1 (by omega)]
      rfl
  have h2 : ∀ a, List.foldl applyInputKV ⟨a, none, none, none, none, [], none⟩
      (ikKVs ik) = ⟨a, ik, none, none, none, [], none⟩ := by
    intro a
    match ik with
    | none => rfl
    | some k =>
      have hk := wf.ik k rfl
      simp only [ikKVs]
      rw [if_neg (by intro h; rw [h] at hk; simp at hk)]
      simp only [List.foldl_cons, List.foldl_nil]
      rw [applyKV_internalKey _ k hk]
  have h3 : ∀ a b, List.foldl applyInputKV ⟨a, b, none, none, none, [], none⟩
      (mrKVs mr) = ⟨a, b, mr, none, none, [], none⟩ := by
    intro a b
    match mr with
    | none => rfl
    | some r =>
      have hr := wf.mr r rfl
      simp only [mrKVs]
      rw [if_pos hr]
      simp only [List.foldl_cons, List.foldl_nil]
      rw [applyKV_merkleRoot _ r hr]
  have h4 : ∀ a b c, List.foldl applyInputKV ⟨a, b, c, none, none, [], none⟩
      (lsKVs ls) = ⟨a, b, c, ls, none, [], none⟩ := by
    intro a b c
    match ls with
    | none => rfl
    | some (script, cb) =>
      have hl := wf.ls script cb rfl
      simp only [lsKVs, List.foldl_cons, List.foldl_nil]
      rw [applyKV_leafScript _ script cb hl.1 (by omega)]
  have h5 : ∀ a b c d, List.foldl applyInputKV ⟨a, b, c, d, none, [], none⟩
      (ksKVs ks) = ⟨a, b, c, d, ks, [], none⟩ := by
    intro a b c d
    match ks with
    | none => rfl
    | some s =>
      have hs := wf.ks s rfl
      simp only [ksKVs]
      rw [if_neg hs.1]
      simp only [List.foldl_cons, List.foldl_nil]
      rw [applyKV_keySig _ s]
  have h6 : ∀ a b c d e, List.foldl applyInputKV ⟨a, b, c, d, e, [], none⟩
      (ssKVs ss) = ⟨a, b, c, d, e, ss, none⟩ := by
    intro a b c d e
    rw [foldl_applyKV_scriptSigs ss _ (fun q hq => ⟨(wf.ss q hq).1, (wf.ss q hq).2.1⟩)]
    have hfd := foldl_dictInsert_nodup ss [] (fun q _ => by simp) wf.ssnd
    simp only [List.nil_append] at hfd
    show (⟨a, b, c, d, e,
      ss.foldl (fun m q => dictInsert m q.1 q.2) [], none⟩ : PsbtInputModel) = _
    rw [hfd]
  have h7 : ∀ a b c d e, List.foldl applyInputKV ⟨a, b, c, d, e, ss, none⟩
      (fwKVs fw) = ⟨a, b, c, d, e, ss, fw⟩ := by
    intro a b c d e
    match fw with
    | none => rfl
    | some ws =>
      have hw := wf.fw ws rfl
      simp only [fwKVs]
      rw [if_neg hw.1]
      simp only [List.foldl_cons, List.foldl_nil]
      rw [applyKV_finalWitness _ ws (by omega) (fun w hwm => by have := hw.2.2 w hwm; omega)]
  simp only [inputKVs, List.foldl_append]
  rw [h1, h2, h3, h4, h5, h6, h7]

theorem flatten_witness_length_le (ws : List (List Nat))
    (h : ∀ w ∈ ws, w.length < 2 ^ 32) :
    ((ws.map (fun w => encodeVarint w.length ++ w)).flatten).length ≤
      ws.length * (9 + 2 ^ 32) := by
  induction ws with
  | nil => simp
  | cons w ws ih =>
    simp only [List.map_cons, List.flatten_cons, List.length_append, List.length_cons]
    have h1 := encodeVarint_length_le w.length
    have h2 := h w (by simp)
    have h3 := ih (fun q hq => h q (by simp [hq]))
    omega

theorem inputKVs_wf (inp : PsbtInputModel) (wf : PsbtInputWF inp) :
    ∀ kv ∈ inputKVs inp, kv.1 ≠ [] ∧ kv.1.length < 2 ^ 64 ∧ kv.2.length < 2 ^ 64 := by
  intro kv hkv
  unfold inputKVs at hkv
  simp only [List.mem_append] at hkv
  rcases hkv with ((((((h | h) | h) | h) | h) | h) | h)
  · rcases hwu : inp.witnessUtxo with _ | ⟨amt, spk⟩ <;> rw [hwu] at h
    · simp [wuKVs] at h
    · simp only [wuKVs, List.mem_singleton] at h
      subst h
      have hw := wf.wu amt spk hwu
      refine ⟨by simp, by norm_num, ?_⟩
      simp only [List.length_append, packInt64_length]
      have := encodeVarint_length_le spk.length
      omega
  · rcases hik : inp.tapInternalKey with _ | k <;> rw [hik] at h
    · simp [ikKVs] at h
    · by_cases hk0 : k = []
      · simp [ikKVs, hk0] at h
      · simp only [ikKVs, if_neg hk0, List.mem_singleton] at h
        subst h
        have := wf.ik k hik
        exact ⟨by simp, by norm_num, by show k.length < 2 ^ 64; omega⟩
  · rcases hmr : inp.tapMerkleRoot with _ | r <;> rw [hmr] at h
    · simp [mrKVs] at h
    · by_cases hr0 : r.length = 32
      · simp only [mrKVs, if_pos hr0, List.mem_singleton] at h
        subst h
        exact ⟨by simp, by norm_num, by show r.length < 2 ^ 64; omega⟩
      · simp [mrKVs, hr0] at h
  · rcases hls : inp.tapLeafScript with _ | ⟨script, cb⟩ <;> rw [hls] at h
    · simp [lsKVs] at h
    · simp only [lsKVs, List.mem_singleton] at h
      subst h
      have hl := wf.ls script cb hls
      refine ⟨by simp, ?_, ?_⟩
      · simp only [List.length_cons]
        omega
      · simp only [List.length_cons, List.length_append]
        have := encodeVarint_length_le script.length
        omega
  · rcases hks : inp.tapKeySig with _ | s <;> rw [hks] at h
    · simp [ksKVs] at h
    · by_cases hs0 : s = []
      · simp [ksKVs, hs0] at h
      · simp only [ksKVs, if_neg hs0, List.mem_singleton] at h
        subst h
        have := wf.ks s hks
        exact ⟨by simp, by norm_num, by show s.length < 2 ^ 64; omega⟩
  · simp only [ssKVs, List.mem_map] at h
    obtain ⟨e, he, rfl⟩ := h
    have hs := wf.ss e he
    refine ⟨by simp, ?_, by show e.2.length < 2 ^ 64; omega⟩
    simp only [List.length_cons, List.length_append]
    omega
  · rcases hfw : inp.finalScriptWitness with _ | ws <;> rw [hfw] at h
    · simp [fwKVs] at h
    · by_cases hw0 : ws = []
      · simp [fwKVs, hw0] at h
      · simp only [fwKVs, if_neg hw0, List.mem_singleton] at h
        subst h
        have hw := wf.fw ws hfw
        refine ⟨by simp, by norm_num, ?_⟩
        simp only [List.length_append]
        have h1 := encodeVarint_length_le ws.length
        have h2 := flatten_witness_length_le ws hw.2.2
        omega

theorem parseInputLoop_kvs :
    ∀ (kvs : List (List Nat × List Nat)) (fuel : Nat) (rest : List Nat)
      (st : PsbtInputModel),
      (∀ kv ∈ kvs, kv.1 ≠ [] ∧ kv.1.length < 2 ^ 64 ∧ kv.2.length < 2 ^ 64) →
      (kvsBytes kvs).length + 1 + rest.length ≤ fuel →
      parseInputLoop fuel (kvsBytes kvs ++ (0x00 :: rest)) st =
        (kvs.foldl applyInputKV st, rest) := by
  intro kvs
  induction kvs with
  | nil =>
    intro fuel rest st _ hfuel
    simp only [kvsBytes, List.map_nil, List.flatten_nil, List.nil_append,
      List.length_nil] at hfuel ⊢
    obtain ⟨f, rfl⟩ : ∃ f, fuel = f + 1 := ⟨fuel - 1, by omega⟩
    simp only [parseInputLoop]
    rw [if_neg (by simp)]
    rw [readKV_sep]
    rfl
  | cons kv kvs ih =>
    intro fuel rest st hwf hfuel
    have hk := hwf kv (List.mem_cons_self kv kvs)
    rw [show kvsBytes (kv :: kvs) = encodeKV kv.1 kv.2 ++ kvsBytes kvs from rfl] at hfuel ⊢
    rw [List.append_assoc]
    simp only [List.length_append] at hfuel
    obtain ⟨f, rfl⟩ : ∃ f, fuel = f + 1 := ⟨fuel - 1, by omega⟩
    simp only [parseInputLoop]
    rw [if_neg (by
      intro hcon
      have hlen := congrArg List.length hcon
      simp only [List.length_append, List.length_cons, List.length_nil] at hlen
      omega)]
    rw [readKV_encodeKV kv.1 kv.2 _ hk.1 hk.2.1 hk.2.2]
    rw [List.foldl_cons]
    exact ih f rest (applyInputKV st kv) (fun q hq => hwf q (List.mem_cons_of_mem kv hq))
      (by
        have h1 : 1 ≤ (encodeKV kv.1 kv.2).length := by
          unfold encodeKV
          simp only [List.length_append]
          have := encodeVarint_length_pos kv.1.length
          omega
        omega)

/-- Decoding the per-input section written by `to_base64` recovers the
`PsbtInput` exactly, consuming up to and including the map separator. -/
theorem parseInputLoop_encodeInputSection (inp : PsbtInputModel) (wf : PsbtInputWF inp)
    (fuel : Nat) (rest : List Nat)
    (hfuel : (encodeInputSection inp).length + rest.length ≤ fuel) :
    parseInputLoop fuel (encodeInputSection inp ++ rest) emptyPsbtInput = (inp, rest) := by
  unfold encodeInputSection at hfuel ⊢
  rw [List.append_assoc]
  rw [show ([0x00] ++ rest : List Nat) = 0x00 :: rest from rfl]
  rw [parseInputLoop_kvs (inputKVs inp) fuel rest emptyPsbtInput (inputKVs_wf inp wf)
    (by simp only [List.length_append, List.length_cons, List.length_nil] at hfuel; omega)]
  rw [foldl_applyKV_inputKVs inp wf]

/-- Modelled from the spec: a Bitcoin transaction as held by the external
`bitcoinutils.transactions.Transaction` (§4.5).  The wire txid is the 32
little-endian bytes as serialized (display txid reversed); `witnesses` is one
stack per input and does not enter the non-witness serialization. -/
structure TxIn where
  txidLE : List Nat
  vout : Nat
  scriptSig : List Nat
  sequence : Nat
deriving DecidableEq

/-- Modelled from the spec: a transaction output (§4.5). -/
structure TxOut where
  amount : Nat
  spk : List Nat
deriving DecidableEq

/-- Modelled from the spec: transaction preamble, inputs, outputs, witness
stacks (§4.5, §3). -/
structure Tx where
  version : Nat
  ins : List TxIn
  outs : List TxOut
  witnesses : List (List (List Nat))
  locktime : Nat
deriving DecidableEq

/-- Modelled from the spec: input wire form
`txid(32 LE) ‖ vout(4 LE) ‖ varint(len) ‖ scriptSig ‖ sequence(4 LE)` (§4.5). -/
def serializeTxIn (i : TxIn) : List Nat :=
  i.txidLE ++ toLE 4 i.vout ++ (encodeVarint i.scriptSig.length ++ i.scriptSig) ++
    toLE 4 i.sequence

/-- Modelled from the spec: output wire form
`amount(8 LE) ‖ varint(len) ‖ scriptPubKey` (§4.5). -/
def serializeTxOut (o : TxOut) : List Nat :=
  toLE 8 o.amount ++ (encodeVarint o.spk.length ++ o.spk)

/-- Modelled from the spec: the non-witness serialization
`version(4 LE) ‖ varint(vin) ‖ inputs ‖ varint(vout) ‖ outputs ‖ locktime(4 LE)`
(§4.5); this is `tx.to_bytes(False)`, the form hashed for the txid and embedded
in `PSBT_GLOBAL_UNSIGNED_TX`. -/
def serializeTxNoWitness (tx : Tx) : List Nat :=
  toLE 4 tx.version ++ encodeVarint tx.ins.length ++
    (tx.ins.map serializeTxIn).flatten ++
  encodeVarint tx.outs.length ++ (tx.outs.map serializeTxOut).flatten ++
    toLE 4 tx.locktime

/-- Modelled from the spec: parse one input of the wire format (§4.5); the
codec MUST round-trip any serialized transaction. -/
def parseTxIn (data : List Nat) : Option (TxIn × List Nat) :=
  if 32 ≤ data.length then
    let txid := data.take 32
    let r1 := data.drop 32
    if 4 ≤ r1.length then
      let vout := fromLE (r1.take 4)
      let r2 := r1.drop 4
      let sl := decodeVarint r2
      let ss := sl.2.take sl.1
      let r3 := sl.2.drop sl.1
      if 4 ≤ r3.length then
        some (⟨txid, vout, ss, fromLE (r3.take 4)⟩, r3.drop 4)
      else none
    else none
  else none

/-- Modelled from the spec: parse a counted run of inputs. -/
def parseTxIns : Nat → List Nat → Option (List TxIn × List Nat)
  | 0, data => some ([], data)
  | n + 1, data =>
    (parseTxIn data).bind (fun ir =>
      (parseTxIns n ir.2).bind (fun isr => some (ir.1 :: isr.1, isr.2)))

/-- Modelled from the spec: parse one output of the wire format (§4.5). -/
def parseTxOut (data : List Nat) : Option (TxOut × List Nat) :=
  if 8 ≤ data.length then
    let amount := fromLE (data.take 8)
    let r1 := data.drop 8
    let sl := decodeVarint r1
    if sl.1 ≤ sl.2.length then
      some (⟨amount, sl.2.take sl.1⟩, sl.2.drop sl.1)
    else none
  else none

/-- Modelled from the spec: parse a counted run of outputs. -/
def parseTxOuts : Nat → List Nat → Option (List TxOut × List Nat)
  | 0, data => some ([], data)
  | n + 1, data =>
    (parseTxOut data).bind (fun orr =>
      (parseTxOuts n orr.2).bind (fun osr => some (orr.1 :: osr.1, osr.2)))

/-- Modelled from the spec: `Transaction.from_raw` on a non-witness
serialization (§4.5); the whole byte string must be consumed, and the parsed
transaction carries no witness stacks. -/
def parseTx (data : List Nat) : Option Tx :=
  if 4 ≤ data.length then
    let version := fromLE (data.take 4)
    let nIn := decodeVarint (data.drop 4)
    (parseTxIns nIn.1 nIn.2).bind (fun ir =>
      let nOut := decodeVarint ir.2
      (parseTxOuts nOut.1 nOut.2).bind (fun osr =>
        if osr.2.length = 4 then
          some ⟨version, ir.1, osr.1, [], fromLE osr.2⟩
        else none))
  else none

/-- Well-formedness of a transaction for the §4.5 frame: field widths fit
their wire slots and the unsigned form carries no witnesses. -/
structure TxWF (tx : Tx) : Prop where
  ver : tx.version < 2 ^ 32
  lock : tx.locktime < 2 ^ 32
  nin : tx.ins.length < 2 ^ 16
  nout : tx.outs.length < 2 ^ 16
  ins : ∀ i ∈ tx.ins, i.txidLE.length = 32 ∧ i.vout < 2 ^ 32 ∧
    i.scriptSig.length < 2 ^ 32 ∧ i.sequence < 2 ^ 32
  outs : ∀ o ∈ tx.outs, o.amount < 2 ^ 64 ∧ o.spk.length < 2 ^ 32
  wit : tx.witnesses = []

theorem parseTxIn_serializeTxIn (i : TxIn) (rest : List Nat)
    (h32 : i.txidLE.length = 32) (hv : i.vout < 2 ^ 32)
    (hss : i.scriptSig.length < 2 ^ 64) (hsq : i.sequence < 2 ^ 32) :
    parseTxIn (serializeTxIn i ++ rest) = some (i, rest) := by
  unfold parseTxIn serializeTxIn
  simp only [List.append_assoc]
  rw [List.take_left' h32, List.drop_left' h32]
  rw [if_pos (by simp [h32])]
  rw [List.take_left' (toLE_length 4 i.vout), List.drop_left' (toLE_length 4 i.vout)]
  rw [if_pos (by simp [toLE_length])]
  rw [decodeVarint_encodeVarint i.scriptSig.length _ hss]
  rw [List.take_left' rfl, List.drop_left' rfl]
  rw [List.take_left' (toLE_length 4 i.sequence), List.drop_left' (toLE_length 4 i.sequence)]
  rw [if_pos (by simp [toLE_length])]
  rw [fromLE_toLE 4 i.vout (by norm_num at hv ⊢; omega),
    fromLE_toLE 4 i.sequence (by norm_num at hsq ⊢; omega)]

theorem parseTxIns_serialize :
    ∀ (is : List TxIn) (rest : List Nat),
      (∀ i ∈ is, i.txidLE.length = 32 ∧ i.vout < 2 ^ 32 ∧
        i.scriptSig.length < 2 ^ 32 ∧ i.sequence < 2 ^ 32) →
      parseTxIns is.length ((is.map serializeTxIn).flatten ++ rest) = some (is, rest) := by
  intro is
  induction is with
  | nil => intro rest _; simp [parseTxIns]
  | cons i is ih =>
    intro rest h
    have hi := h i (by simp)
    simp only [List.length_cons, List.map_cons, List.flatten_cons, List.append_assoc]
    rw [parseTxIns]
    rw [parseTxIn_serializeTxIn i _ hi.1 hi.2.1 (by omega) hi.2.2.2]
    rw [Option.some_bind]
    rw [ih rest (fun q hq => h q (by simp [hq]))]
    rw [Option.some_bind]

theorem parseTxOut_serializeTxOut (o : TxOut) (rest : List Nat)
    (ha : o.amount < 2 ^ 64) (hs : o.spk.length < 2 ^ 64) :
    parseTxOut (serializeTxOut o ++ rest) = some (o, rest) := by
  unfold parseTxOut serializeTxOut
  simp only [List.append_assoc]
  rw [List.take_left' (toLE_length 8 o.amount), List.drop_left' (toLE_length 8 o.amount)]
  rw [if_pos (by simp [toLE_length])]
  rw [decodeVarint_encodeVarint o.spk.length _ hs]
  rw [if_pos (by simp)]
  rw [List.take_left' rfl, List.drop_left' rfl]
  rw [fromLE_toLE 8 o.amount (by norm_num at ha ⊢; omega)]

theorem parseTxOuts_serialize :
    ∀ (os : List TxOut) (rest : List Nat),
      (∀ o ∈ os, o.amount < 2 ^ 64 ∧ o.spk.length < 2 ^ 32) →
      parseTxOuts os.length ((os.map serializeTxOut).flatten ++ rest) = some (os, rest) := by
  intro os
  induction os with
  | nil => intro rest _; simp [parseTxOuts]
  | cons o os ih =>
    intro rest h
    have ho := h o (by simp)
    simp only [List.length_cons, List.map_cons, List.flatten_cons, List.append_assoc]
    rw [parseTxOuts]
    rw [parseTxOut_serializeTxOut o _ ho.1 (by omega)]
    rw [Option.some_bind]
    rw [ih rest (fun q hq => h q (by simp [hq]))]
    rw [Option.some_bind]

/-- Modelled from the spec: codec round trip `decode(encode(tx)) == tx`
for any well-formed unsigned transaction (§8 scenario 5). -/
theorem parseTx_serializeTxNoWitness (tx : Tx) (wf : TxWF tx) :
    parseTx (serializeTxNoWitness tx) = some tx := by
  unfold parseTx serializeTxNoWitness
  simp only [List.append_assoc]
  rw [List.take_left' (toLE_length 4 tx.version), List.drop_left' (toLE_length 4 tx.version)]
  rw [if_pos (by simp [toLE_length])]
  rw [decodeVarint_encodeVarint tx.ins.length _ (by have := wf.nin; omega)]
  rw [parseTxIns_serialize tx.ins _ wf.ins]
  rw [Option.some_bind]
  rw [decodeVarint_encodeVarint tx.outs.length _ (by have := wf.nout; omega)]
  rw [parseTxOuts_serialize tx.outs _ wf.outs]
  rw [Option.some_bind]
  rw [if_pos (toLE_length 4 tx.locktime)]
  rw [fromLE_toLE 4 tx.version (by have := wf.ver; norm_num at this ⊢; omega),
    fromLE_toLE 4 tx.locktime (by have := wf.lock; norm_num at this ⊢; omega)]
  obtain ⟨v, i, o, w, l⟩ := tx
  have hw : w = [] := wf.wit
  subst hw
  rfl

theorem serializeTxIn_length_le (i : TxIn) (h32 : i.txidLE.length = 32)
    (hss : i.scriptSig.length < 2 ^ 32) :
    (serializeTxIn i).length ≤ 49 + 2 ^ 32 := by
  unfold serializeTxIn
  simp only [List.length_append, toLE_length, h32]
  have := encodeVarint_length_le i.scriptSig.length
  omega

theorem serializeTxOut_length_le (o : TxOut) (hs : o.spk.length < 2 ^ 32) :
    (serializeTxOut o).length ≤ 17 + 2 ^ 32 := by
  unfold serializeTxOut
  simp only [List.length_append, toLE_length]
  have := encodeVarint_length_le o.spk.length
  omega

theorem flatten_txins_length_le (is : List TxIn)
    (h : ∀ i ∈ is, (serializeTxIn i).length ≤ 49 + 2 ^ 32) :
    ((is.map serializeTxIn).flatten).length ≤ is.length * (49 + 2 ^ 32) := by
  induction is with
  | nil => simp
  | cons i is ih =>
    simp only [List.map_cons, List.flatten_cons, List.length_append, List.length_cons]
    have h1 := h i (by simp)
    have h2 := ih (fun q hq => h q (by simp [hq]))
    omega

theorem flatten_txouts_length_le (os : List TxOut)
    (h : ∀ o ∈ os, (serializeTxOut o).length ≤ 17 + 2 ^ 32) :
    ((os.map serializeTxOut).flatten).length ≤ os.length * (17 + 2 ^ 32) := by
  induction os with
  | nil => simp
  | cons o os ih =>
    simp only [List.map_cons, List.flatten_cons, List.length_append, List.length_cons]
    have h1 := h o (by simp)
    have h2 := ih (fun q hq => h q (by simp [hq]))
    omega

theorem serializeTx_length_lt (tx : Tx) (wf : TxWF tx) :
    (serializeTxNoWitness tx).length < 2 ^ 64 := by
  unfold serializeTxNoWitness
  simp only [List.length_append, toLE_length]
  have h1 := encodeVarint_length_le tx.ins.length
  have h2 := encodeVarint_length_le tx.outs.length
  have h3 := flatten_txins_length_le tx.ins
    (fun i hi => serializeTxIn_length_le i ((wf.ins i hi).1) ((wf.ins i hi).2.2.1))
  have h4 := flatten_txouts_length_le tx.outs
    (fun o ho => serializeTxOut_length_le o ((wf.outs o ho).2))
  have h5 := wf.nin
  have h6 := wf.nout
  omega

def psbtMagic : List Nat := [0x70, 0x73, 0x62, 0x74, 0xFF]

/-- A PSBT v0 (`Psbt` in psbt.py): the embedded transaction plus one
`PsbtInput` per transaction input. -/
structure PsbtModel where
  tx : Tx
  inputs : List PsbtInputModel
deriving DecidableEq

/-- `Psbt.to_base64` before the base64 step: magic, the
`PSBT_GLOBAL_UNSIGNED_TX` pair followed by the global separator, then one
per-input section (each ending in its own separator), then the trailing
(output-map) separator. -/
def psbtToBytes (p : PsbtModel) : List Nat :=
  psbtMagic ++ (encodeKV [0x00] (serializeTxNoWitness p.tx) ++ [0x00]) ++
    ((p.inputs.map encodeInputSection).flatten ++ [0x00])

/-- The global while-loop of `Psbt.from_base64`: scan key-value pairs until
the separator, remembering the last `PSBT_GLOBAL_UNSIGNED_TX` value and
dropping every other global key. -/
def parseGlobalLoop : Nat → List Nat → Option (List Nat) →
    Option (List Nat) × List Nat
  | 0, data, acc => (acc, data)
  | fuel + 1, data, acc =>
    if data = [] then (acc, data)
    else
      match readKV data with
      | (none, rest) => (acc, rest)
      | (some kv, rest) =>
        parseGlobalLoop fuel rest (if kv.1 = [0x00] then some kv.2 else acc)

/-- The per-input for-loop of `Psbt.from_base64`: one input-map parse per
transaction input. -/
def parseInputsLoop : Nat → List Nat → List PsbtInputModel × List Nat
  | 0, data => ([], data)
  | n + 1, data =>
    let r := parseInputLoop data.length data emptyPsbtInput
    let rs := parseInputsLoop n r.2
    (r.1 :: rs.1, rs.2)

/-- `Psbt.from_base64` after the base64 step: check the magic, scan the
global map for the unsigned transaction, parse it, then parse one input map
per transaction input; trailing bytes are ignored. -/
def psbtFromBytes (raw : List Nat) : Option PsbtModel :=
  if raw.take 5 = psbtMagic then
    let g := parseGlobalLoop (raw.drop 5).length (raw.drop 5) none
    g.1.bind (fun utb =>
      (parseTx utb).bind (fun tx =>
        some ⟨tx, (parseInputsLoop tx.ins.length g.2).1⟩))
  else none

/-- Well-formedness of a PSBT as produced by this codebase: well-formed
unsigned transaction, one `PsbtInput` per transaction input, each with
well-formed fields. -/
structure PsbtWF (p : PsbtModel) : Prop where
  txwf : TxWF p.tx
  len : p.inputs.length = p.tx.ins.length
  inps : ∀ inp ∈ p.inputs, PsbtInputWF inp

theorem parseGlobalLoop_encoded (utb rest : List Nat) (fuel : Nat)
    (hutb : utb.length < 2 ^ 64)
    (hfuel : (encodeKV [0x00] utb).length + 1 + rest.length ≤ fuel) :
    parseGlobalLoop fuel (encodeKV [0x00] utb ++ (0x00 :: rest)) none =
      (some utb, rest) := by
  have henc : 1 ≤ (encodeKV [0x00] utb).length := by
    unfold encodeKV
    simp only [List.length_append]
    have := encodeVarint_length_pos ([0x00] : List Nat).length
    omega
  obtain ⟨f, rfl⟩ : ∃ f, fuel = f + 2 := ⟨fuel - 2, by omega⟩
  rw [show f + 2 = (f + 1) + 1 from rfl]
  rw [parseGlobalLoop]
  rw [if_neg (by
    intro hcon
    have hlen := congrArg List.length hcon
    simp only [List.length_append, List.length_cons, List.length_nil] at hlen
    omega)]
  rw [readKV_encodeKV [0x00] utb _ (by simp) (by simp) hutb]
  show parseGlobalLoop (f + 1) (0x00 :: rest)
      (if ([0x00] : List Nat) = [0x00] then some utb else none) = (some utb, rest)
  rw [if_pos rfl]
  rw [parseGlobalLoop]
  rw [if_neg (by simp)]
  rw [readKV_sep]

theorem parseInputsLoop_encoded :
    ∀ (inps : List PsbtInputModel) (rest : List Nat),
      (∀ inp ∈ inps, PsbtInputWF inp) →
      parseInputsLoop inps.length ((inps.map encodeInputSection).flatten ++ rest) =
        (inps, rest) := by
  intro inps
  induction inps with
  | nil => intro rest _; simp [parseInputsLoop]
  | cons inp inps ih =>
    intro rest h
    simp only [List.length_cons, List.map_cons, List.flatten_cons, List.append_assoc]
    rw [parseInputsLoop]
    rw [parseInputLoop_encodeInputSection inp (h inp (by simp)) _ _
      (by simp only [List.length_append]; omega)]
    rw [ih rest (fun q hq => h q (by simp [hq]))]

/-- Byte-level PSBT v0 round trip for the recognized fields: decoding the
encoding of a well-formed PSBT recovers it exactly. -/
theorem psbtFromBytes_psbtToBytes (p : PsbtModel) (wf : PsbtWF p) :
    psbtFromBytes (psbtToBytes p) = some p := by
  unfold psbtFromBytes psbtToBytes
  have hm : (psbtMagic : List Nat).length = 5 := rfl
  rw [List.append_assoc, List.take_left' hm, List.drop_left' hm]
  rw [if_pos rfl]
  rw [show (encodeKV [0x00] (serializeTxNoWitness p.tx) ++ [0x00]) ++
      ((p.inputs.map encodeInputSection).flatten ++ [0x00]) =
      encodeKV [0x00] (serializeTxNoWitness p.tx) ++
        (0x00 :: ((p.inputs.map encodeInputSection).flatten ++ [0x00])) from by
    simp [List.append_assoc]]
  rw [parseGlobalLoop_encoded _ _ _ (serializeTx_length_lt p.tx wf.txwf)
    (by simp only [List.length_append, List.length_cons, List.length_nil]; omega)]
  rw [Option.some_bind]
  rw [parseTx_serializeTxNoWitness p.tx wf.txwf]
  rw [Option.some_bind]
  rw [← wf.len]
  rw [parseInputsLoop_encoded p.inputs [0x00] wf.inps]

/-- The standard base64 alphabet (`base64.b64encode`). -/
def b64Char (v : Nat) : Char :=
  if v < 26 then Char.ofNat (65 + v)
  else if v < 52 then Char.ofNat (97 + (v - 26))
  else if v < 62 then Char.ofNat (48 + (v - 52))
  else if v = 62 then '+'
  else '/'

/-- `base64.b64encode`: three bytes at a time into four sextet characters,
with `=` padding. -/
def b64Encode : List Nat → List Char
  | [] => []
  | [a] => [b64Char (a / 4), b64Char (a % 4 * 16), '=', '=']
  | [a, b] => [b64Char (a / 4), b64Char (a % 4 * 16 + b / 16), b64Char (b % 16 * 4), '=']
  | a :: b :: c :: rest =>
    b64Char (a / 4) :: b64Char (a % 4 * 16 + b / 16) ::
      b64Char (b % 16 * 4 + c / 64) :: b64Char (c % 64) :: b64Encode rest

/-- Value of one base64 alphabet character (`base64.b64decode`). -/
def b64Val (ch : Char) : Option Nat :=
  let n := ch.toNat
  if 65 ≤ n ∧ n ≤ 90 then some (n - 65)
  else if 97 ≤ n ∧ n ≤ 122 then some (n - 97 + 26)
  else if 48 ≤ n ∧ n ≤ 57 then some (n - 48 + 52)
  else if n = 43 then some 62
  else if n = 47 then some 63
  else none

/-- `base64.b64decode`: four characters at a time back to bytes, honouring
`=` padding in the final group. -/
def b64Decode : List Char → Option (List Nat)
  | [] => some []
  | w :: x :: y :: z :: rest =>
    (b64Val w).bind (fun vw =>
      (b64Val x).bind (fun vx =>
        if y = '=' then
          if z = '=' ∧ rest = [] then some [vw * 4 + vx / 16] else none
        else
          (b64Val y).bind (fun vy =>
            if z = '=' then
              if rest = [] then some [vw * 4 + vx / 16, vx % 16 * 16 + vy / 4]
              else none
            else
              (b64Val z).bind (fun vz =>
                (b64Decode rest).bind (fun bs =>
                  some ((vw * 4 + vx / 16) :: (vx % 16 * 16 + vy / 4) ::
                    (vy % 4 * 64 + vz) :: bs))))))
  | _ => none

theorem b64Val_b64Char (v : Nat) (hv : v < 64) : b64Val (b64Char v) = some v := by
  revert hv
  revert v
  decide

theorem b64Char_ne_pad (v : Nat) (hv : v < 64) : b64Char v ≠ '=' := by
  revert hv
  revert v
  decide

theorem b64Decode_b64Encode : ∀ (l : List Nat), allBytes l →
    b64Decode (b64Encode l) = some l
  | [], _ => rfl
  | [a], h => by
    have ha : a < 256 := h a (by simp)
    rw [show b64Encode [a] =
      [b64Char (a / 4), b64Char (a % 4 * 16), '=', '='] from rfl]
    rw [b64Decode]
    rw [b64Val_b64Char (a / 4) (by omega), Option.some_bind]
    rw [b64Val_b64Char (a % 4 * 16) (by omega), Option.some_bind]
    rw [if_pos rfl, if_pos ⟨rfl, rfl⟩]
    have : a / 4 * 4 + a % 4 * 16 / 16 = a := by omega
    rw [this]
  | [a, b], h => by
    have ha : a < 256 := h a (by simp)
    have hb : b < 256 := h b (by simp)
    rw [show b64Encode [a, b] =
      [b64Char (a / 4), b64Char (a % 4 * 16 + b / 16), b64Char (b % 16 * 4), '='] from rfl]
    rw [b64Decode]
    rw [b64Val_b64Char (a / 4) (by omega), Option.some_bind]
    rw [b64Val_b64Char (a % 4 * 16 + b / 16) (by omega), Option.some_bind]
    rw [if_neg (b64Char_ne_pad (b % 16 * 4) (by omega))]
    rw [b64Val_b64Char (b % 16 * 4) (by omega), Option.some_bind]
    rw [if_pos rfl, if_pos rfl]
    have h1 : a / 4 * 4 + (a % 4 * 16 + b / 16) / 16 = a := by omega
    have h2 : (a % 4 * 16 + b / 16) % 16 * 16 + b % 16 * 4 / 4 = b := by omega
    rw [h1, h2]
  | a :: b :: c :: rest, h => by
    have ha : a < 256 := h a (by simp)
    have hb : b < 256 := h b (by simp)
    have hc : c < 256 := h c (by simp)
    rw [show b64Encode (a :: b :: c :: rest) =
      b64Char (a / 4) :: b64Char (a % 4 * 16 + b / 16) ::
        b64Char (b % 16 * 4 + c / 64) :: b64Char (c % 64) :: b64Encode rest from rfl]
    rw [b64Decode]
    rw [b64Val_b64Char (a / 4) (by omega), Option.some_bind]
    rw [b64Val_b64Char (a % 4 * 16 + b / 16) (by omega), Option.some_bind]
    rw [if_neg (b64Char_ne_pad (b % 16 * 4 + c / 64) (by omega))]
    rw [b64Val_b64Char (b % 16 * 4 + c / 64) (by omega), Option.some_bind]
    rw [if_neg (b64Char_ne_pad (c % 64) (by omega))]
    rw [b64Val_b64Char (c % 64) (by omega), Option.some_bind]
    rw [b64Decode_b64Encode rest (fun q hq => h q (by simp [hq])), Option.some_bind]
    have h1 : a / 4 * 4 + (a % 4 * 16 + b / 16) / 16 = a := by omega
    have h2 : (a % 4 * 16 + b / 16) % 16 * 16 + (b % 16 * 4 + c / 64) / 4 = b := by omega
    have h3 : (b % 16 * 4 + c / 64) % 4 * 64 + c % 64 = c := by omega
    rw [h1, h2, h3]

theorem allBytes_nil : allBytes [] := fun b hb => by simp at hb

theorem allBytes_cons (b : Nat) (l : List Nat) (hb : b < 256) (hl : allBytes l) :
    allBytes (b :: l) := by
  intro q hq
  rcases List.mem_cons.mp hq with h | h
  · omega
  · exact hl q h

theorem allBytes_append (l1 l2 : List Nat) (h1 : allBytes l1) (h2 : allBytes l2) :
    allBytes (l1 ++ l2) := by
  intro b hb
  rcases List.mem_append.mp hb with h | h
  · exact h1 b h
  · exact h2 b h

theorem allBytes_flatten (ls : List (List Nat)) (h : ∀ l ∈ ls, allBytes l) :
    allBytes ls.flatten := by
  intro b hb
  obtain ⟨l, hl, hbl⟩ := List.mem_flatten.mp hb
  exact h l hl b hbl

theorem encodeKV_allBytes (key value : List Nat) (hk : allBytes key)
    (hv : allBytes value) : allBytes (encodeKV key value) := by
  unfold encodeKV
  exact allBytes_append _ _
    (allBytes_append _ _ (encodeVarint_allBytes _) hk)
    (allBytes_append _ _ (encodeVarint_allBytes _) hv)

/-- Byte-ness of the fields of a `PsbtInput` (Python `bytes` values). -/
structure PsbtInputBytes (inp : PsbtInputModel) : Prop where
  wu : ∀ a spk, inp.witnessUtxo = some (a, spk) → allBytes spk
  ik : ∀ k, inp.tapInternalKey = some k → allBytes k
  mr : ∀ r, inp.tapMerkleRoot = some r → allBytes r
  ls : ∀ s cb, inp.tapLeafScript = some (s, cb) → allBytes s ∧ allBytes cb
  ks : ∀ s, inp.tapKeySig = some s → allBytes s
  ss : ∀ e ∈ inp.tapScriptSigs, allBytes e.1.1 ∧ allBytes e.1.2 ∧ allBytes e.2
  fw : ∀ ws, inp.finalScriptWitness = some ws → ∀ w ∈ ws, allBytes w

/-- Byte-ness of the byte-string fields of a transaction. -/
structure TxBytes (tx : Tx) : Prop where
  ins : ∀ i ∈ tx.ins, allBytes i.txidLE ∧ allBytes i.scriptSig
  outs : ∀ o ∈ tx.outs, allBytes o.spk

/-- Byte-ness of all byte-string fields of a PSBT. -/
structure PsbtBytes (p : PsbtModel) : Prop where
  txb : TxBytes p.tx
  inps : ∀ inp ∈ p.inputs, PsbtInputBytes inp

theorem serializeTxIn_allBytes (i : TxIn) (h1 : allBytes i.txidLE)
    (h2 : allBytes i.scriptSig) : allBytes (serializeTxIn i) := by
  unfold serializeTxIn
  exact allBytes_append _ _ (allBytes_append _ _ (allBytes_append _ _ h1
    (toLE_allBytes _ _)) (allBytes_append _ _ (encodeVarint_allBytes _) h2))
    (toLE_allBytes _ _)

theorem serializeTxOut_allBytes (o : TxOut) (h : allBytes o.spk) :
    allBytes (serializeTxOut o) := by
  unfold serializeTxOut
  exact allBytes_append _ _ (toLE_allBytes _ _)
    (allBytes_append _ _ (encodeVarint_allBytes _) h)

theorem serializeTx_allBytes (tx : Tx) (hb : TxBytes tx) :
    allBytes (serializeTxNoWitness tx) := by
  unfold serializeTxNoWitness
  refine allBytes_append _ _ (allBytes_append _ _ (allBytes_append _ _
    (allBytes_append _ _ (allBytes_append _ _ (toLE_allBytes _ _)
      (encodeVarint_allBytes _)) ?_) (encodeVarint_allBytes _)) ?_)
    (toLE_allBytes _ _)
  · refine allBytes_flatten _ ?_
    intro l hl
    obtain ⟨i, hi, rfl⟩ := List.mem_map.mp hl
    exact serializeTxIn_allBytes i ((hb.ins i hi).1) ((hb.ins i hi).2)
  · refine allBytes_flatten _ ?_
    intro l hl
    obtain ⟨o, ho, rfl⟩ := List.mem_map.mp hl
    exact serializeTxOut_allBytes o (hb.outs o ho)

theorem inputKVs_allBytes (inp : PsbtInputModel) (hb : PsbtInputBytes inp) :
    ∀ kv ∈ inputKVs inp, allBytes kv.1 ∧ allBytes kv.2 := by
  intro kv hkv
  unfold inputKVs at hkv
  simp only [List.mem_append] at hkv
  rcases hkv with ((((((h | h) | h) | h) | h) | h) | h)
  · rcases hwu : inp.witnessUtxo with _ | ⟨amt, spk⟩ <;> rw [hwu] at h
    · simp [wuKVs] at h
    · simp only [wuKVs, List.mem_singleton] at h
      subst h
      refine ⟨by intro b hb2; simp at hb2; omega, ?_⟩
      exact allBytes_append _ _ (packInt64_allBytes amt)
        (allBytes_append _ _ (encodeVarint_allBytes _) (hb.wu amt spk hwu))
  · rcases hik : inp.tapInternalKey with _ | k <;> rw [hik] at h
    · simp [ikKVs] at h
    · by_cases hk0 : k = []
      · simp [ikKVs, hk0] at h
      · simp only [ikKVs, if_neg hk0, List.mem_singleton] at h
        subst h
        exact ⟨by intro b hb2; simp at hb2; omega, hb.ik k hik⟩
  · rcases hmr : inp.tapMerkleRoot with _ | r <;> rw [hmr] at h
    · simp [mrKVs] at h
    · by_cases hr0 : r.length = 32
      · simp only [mrKVs, if_pos hr0, List.mem_singleton] at h
        subst h
        exact ⟨by intro b hb2; simp at hb2; omega, hb.mr r hmr⟩
      · simp [mrKVs, hr0] at h
  · rcases hls : inp.tapLeafScript with _ | ⟨script, cb⟩ <;> rw [hls] at h
    · simp [lsKVs] at h
    · simp only [lsKVs, List.mem_singleton] at h
      subst h
      have hl := hb.ls script cb hls
      refine ⟨allBytes_cons _ _ (by norm_num) hl.2, ?_⟩
      exact allBytes_cons _ _ (by norm_num)
        (allBytes_append _ _ (encodeVarint_allBytes _) hl.1)
  · rcases hks : inp.tapKeySig with _ | s <;> rw [hks] at h
    · simp [ksKVs] at h
    · by_cases hs0 : s = []
      · simp [ksKVs, hs0] at h
      · simp only [ksKVs, if_neg hs0, List.mem_singleton] at h
        subst h
        exact ⟨by intro b hb2; simp at hb2; omega, hb.ks s hks⟩
  · simp only [ssKVs, List.mem_map] at h
    obtain ⟨e, he, rfl⟩ := h
    have hs := hb.ss e he
    refine ⟨?_, hs.2.2⟩
    exact allBytes_cons _ _ (by norm_num) (allBytes_append _ _ hs.1 hs.2.1)
  · rcases hfw : inp.finalScriptWitness with _ | ws <;> rw [hfw] at h
    · simp [fwKVs] at h
    · by_cases hw0 : ws = []
      · simp [fwKVs, hw0] at h
      · simp only [fwKVs, if_neg hw0, List.mem_singleton] at h
        subst h
        refine ⟨by intro b hb2; simp at hb2; omega, ?_⟩
        refine allBytes_append _ _ (encodeVarint_allBytes _) (allBytes_flatten _ ?_)
        intro l hl
        obtain ⟨w, hw, rfl⟩ := List.mem_map.mp hl
        exact allBytes_append _ _ (encodeVarint_allBytes _) (hb.fw ws hfw w hw)

theorem encodeInputSection_allBytes (inp : PsbtInputModel) (hb : PsbtInputBytes inp) :
    allBytes (encodeInputSection inp) := by
  unfold encodeInputSection kvsBytes
  refine allBytes_append _ _ (allBytes_flatten _ ?_) (by intro b hb2; simp at hb2; omega)
  intro l hl
  obtain ⟨kv, hkv, rfl⟩ := List.mem_map.mp hl
  have := inputKVs_allBytes inp hb kv hkv
  exact encodeKV_allBytes kv.1 kv.2 this.1 this.2

theorem psbtToBytes_allBytes (p : PsbtModel) (hb : PsbtBytes p) :
    allBytes (psbtToBytes p) := by
  unfold psbtToBytes
  refine allBytes_append _ _ (allBytes_append _ _
    (by intro b hb2; simp [psbtMagic] at hb2; omega)
    (allBytes_append _ _ ?_ (by intro b hb2; simp at hb2; omega)))
    (allBytes_append _ _ (allBytes_flatten _ ?_) (by intro b hb2; simp at hb2; omega))
  · exact encodeKV_allBytes _ _ (by intro b hb2; simp at hb2; omega)
      (serializeTx_allBytes p.tx hb.txb)
  · intro l hl
    obtain ⟨inp, hinp, rfl⟩ := List.mem_map.mp hl
    exact encodeInputSection_allBytes inp (hb.inps inp hinp)

/-- `Psbt.to_base64` end to end (bytes, then base64 characters). -/
def psbtToBase64 (p : PsbtModel) : List Char := b64Encode (psbtToBytes p)

/-- `Psbt.from_base64` end to end (base64 decode, then PSBT decode). -/
def psbtFromBase64 (s : List Char) : Option PsbtModel :=
  (b64Decode s).bind psbtFromBytes

theorem psbtFromBase64_psbtToBase64 (p : PsbtModel) (wf : PsbtWF p)
    (hb : PsbtBytes p) : psbtFromBase64 (psbtToBase64 p) = some p := by
  unfold psbtFromBase64 psbtToBase64
  rw [b64Decode_b64Encode _ (psbtToBytes_allBytes p hb), Option.some_bind]
  exact psbtFromBytes_psbtToBytes p wf

theorem emptyPsbtInput_wf : PsbtInputWF emptyPsbtInput := by
  refine ⟨?_, ?_, ?_, ?_, ?_, ?_, ?_, ?_⟩
  · intro a spk h; simp [emptyPsbtInput] at h
  · intro k h; simp [emptyPsbtInput] at h
  · intro r h; simp [emptyPsbtInput] at h
  · intro s cb h; simp [emptyPsbtInput] at h
  · intro s h; simp [emptyPsbtInput] at h
  · intro e he; simp [emptyPsbtInput] at he
  · simp [emptyPsbtInput]
  · intro ws h; simp [emptyPsbtInput] at h

theorem emptyPsbtInput_bytes : PsbtInputBytes emptyPsbtInput := by
  refine ⟨?_, ?_, ?_, ?_, ?_, ?_, ?_⟩
  · intro a spk h; simp [emptyPsbtInput] at h
  · intro k h; simp [emptyPsbtInput] at h
  · intro r h; simp [emptyPsbtInput] at h
  · intro s cb h; simp [emptyPsbtInput] at h
  · intro s h; simp [emptyPsbtInput] at h
  · intro e he; simp [emptyPsbtInput] at he
  · intro ws h; simp [emptyPsbtInput] at h

def c4Tx : Tx :=
  ⟨2, [⟨List.replicate 32 17, 0, [], 0xFFFFFFFD⟩],
    [⟨1000, [0x00, 0x14] ++ List.replicate 20 5⟩], [], 0⟩

def c4UnknownKV : List Nat := encodeKV [0xFC] [0x2A]

/-- A valid PSBT byte stream whose global map carries the recognized
`PSBT_GLOBAL_UNSIGNED_TX` pair and in addition an unrecognized key type
`0xFC`. -/
def c4Raw : List Nat :=
  psbtMagic ++ (c4UnknownKV ++ (encodeKV [0x00] (serializeTxNoWitness c4Tx) ++ [0x00])) ++
    ([0x00] ++ [0x00])

/-- The same stream without the unknown pair. -/
def c4Stripped : List Nat :=
  psbtMagic ++ (encodeKV [0x00] (serializeTxNoWitness c4Tx) ++ [0x00]) ++
    ([0x00] ++ [0x00])

def c4P : PsbtModel := ⟨c4Tx, [emptyPsbtInput]⟩

set_option maxRecDepth 4000 in
/-- C4 counterexample: decoding a valid PSBT carrying an unrecognized global
key type (`0xFC`) succeeds, but re-encoding emits only the recognized
fields — the unknown pair is dropped, not preserved, so
`to_base64(from_base64(P))` differs from `P`. -/
theorem unknownGlobalKey_not_reemitted :
    (psbtFromBase64 (b64Encode c4Raw)).map psbtToBase64 =
        some (b64Encode c4Stripped) ∧
      b64Encode c4Stripped ≠ b64Encode c4Raw := by
  decide

/-- C4 amended: for every well-formed PSBT built from the recognized field
set (no unknown keys), `from_base64(to_base64(p))` recovers `p` exactly —
so the re-serialization is byte-identical; unknown key types, however, are
dropped, not preserved. -/
theorem psbt_roundtrip_recognized_fields (p : PsbtModel) (wf : PsbtWF p)
    (hb : PsbtBytes p) : psbtFromBase64 (psbtToBase64 p) = some p :=
  psbtFromBase64_psbtToBase64 p wf hb

theorem c4P_wf : PsbtWF c4P := by
  refine ⟨⟨?_, ?_, ?_, ?_, ?_, ?_, ?_⟩, ?_, ?_⟩
  · norm_num [c4P, c4Tx]
  · norm_num [c4P, c4Tx]
  · norm_num [c4P, c4Tx]
  · norm_num [c4P, c4Tx]
  · intro i hi
    simp only [c4P, c4Tx, List.mem_singleton] at hi
    subst hi
    refine ⟨by simp, by norm_num, by simp, by norm_num⟩
  · intro o ho
    simp only [c4P, c4Tx, List.mem_singleton] at ho
    subst ho
    refine ⟨by norm_num, ?_⟩
    show ([0x00, 0x14] ++ List.replicate 20 5 : List Nat).length < 2 ^ 32
    simp
  · rfl
  · rfl
  · intro inp hinp
    simp only [c4P, List.mem_singleton] at hinp
    subst hinp
    exact emptyPsbtInput_wf

theorem c4P_bytes : PsbtBytes c4P := by
  refine ⟨⟨?_, ?_⟩, ?_⟩
  · intro i hi
    simp only [c4P, c4Tx, List.mem_singleton] at hi
    subst hi
    constructor
    · intro b hb2
      show b < 256
      simp only [List.mem_replicate] at hb2
      omega
    · intro b hb2
      simp at hb2
  · intro o ho
    simp only [c4P, c4Tx, List.mem_singleton] at ho
    subst ho
    intro b hb2
    simp only [List.mem_append, List.mem_cons, List.mem_replicate,
      List.not_mem_nil, or_false] at hb2
    omega
  · intro inp hinp
    simp only [c4P, List.mem_singleton] at hinp
    subst hinp
    exact emptyPsbtInput_bytes

theorem psbt_roundtrip_recognized_fields_witness :
    psbtFromBase64 (psbtToBase64 c4P) = some c4P :=
  psbt_roundtrip_recognized_fields c4P c4P_wf c4P_bytes

/-! ## The S4 refinement: direct build vs PSBT path (C1) -/

/-- Modelled from the spec: the display txid — double SHA-256 of the
non-witness serialization, rendered in reverse byte order (§4.5, §8). -/
def txidHex (tx : Tx) : String :=
  hexEncode (sha256 (sha256 (serializeTxNoWitness tx))).reverse

/-- Modelled from the spec: the external `TxInput(txid, vout)` with an
explicit nSequence; the display txid reverses into wire order (§4.5). -/
def txInFromUtxo (txid : String) (vout seqv : Nat) : TxIn :=
  ⟨((hexDecode txid).getD []).reverse, vout, [], seqv⟩

/-- The declared pubkey list of a MULTISIG leaf (`leaf.params["pubkeys"]`). -/
def paramsPubkeys : LeafParams → List (List Nat)
  | .multisig _ pks => pks
  | _ => []

/-- `SpendBuilder._build_unsigned_tx` on the script path: one input per
UTXO with the §4.7 sequence policy as implemented, one output per `to()`
call; the address-to-scriptPubKey decoding and the transaction
version/locktime are the external library's (parameters `addrSpk`,
`version`, `locktime`). -/
def buildUnsignedTxSP (st : SpendBuilderState) (leaf : LeafDescriptor)
    (addrSpk : String → List Nat) (version locktime : Nat) : Tx :=
  ⟨version,
   st.utxos.map (fun u => txInFromUtxo u.1 u.2.1 (scriptPathSequence st leaf)),
   st.outputs.map (fun o => ⟨o.2, addrSpk o.1⟩),
   [], locktime⟩

/-- `SpendBuilder._build_script_path` for a MULTISIG leaf: the same inputs
and outputs as the unsigned build, plus one witness stack per input —
signatures (from the external signer `sigOf`, one per signing key) in
reverse declaration order, then script and control block. -/
def buildScriptPathTxMultisig (st : SpendBuilderState) (leaf : LeafDescriptor)
    (addrSpk : String → List Nat) (version locktime : Nat)
    (script cb : List Nat) (sigOf : Nat → List Nat → List Nat) : Tx :=
  ⟨version,
   st.utxos.map (fun u => txInFromUtxo u.1 u.2.1 (scriptPathSequence st leaf)),
   st.outputs.map (fun o => ⟨o.2, addrSpk o.1⟩),
   (List.range st.utxos.length).map (fun i =>
     buildMultisigWitness (paramsPubkeys leaf.params)
       (multisigSigsByPubkey st.signatures (sigOf i)) script cb),
   locktime⟩

/-- `SpendBuilder.to_psbt` on the script path: the unsigned transaction plus
one `PsbtInput` per UTXO carrying the witness UTXO (amount and the
program's scriptPubKey), the internal x-only key, the merkle root from
`merkle_root_bytes()`, and the leaf script with its control block. -/
def toPsbtSP (st : SpendBuilderState) (leaf : LeafDescriptor)
    (addrSpk : String → List Nat) (version locktime : Nat)
    (progSpk ikey : List Nat) (mroot : Option (List Nat)) (cb : List Nat) :
    PsbtModel :=
  ⟨buildUnsignedTxSP st leaf addrSpk version locktime,
   st.utxos.map (fun u =>
     ⟨some ((u.2.2 : Int), progSpk), some ikey, mroot,
      some (leaf.scriptBytes, cb), none, [], none⟩)⟩

/-- The per-input effect of `Psbt.sign_with`: with a tapleaf script the
external signer's signature is stored under `(pubkey, tapleaf_hash)`;
otherwise it becomes the key-path signature. -/
def signInput (inp : PsbtInputModel) (pk sig : List Nat) : PsbtInputModel :=
  match inp.tapLeafScript with
  | some (script, _) =>
    { inp with tapScriptSigs :=
        dictInsert inp.tapScriptSigs (pk, tapleafHash script 0xC0) sig }
  | none => { inp with tapKeySig := some sig }

/-- In-place update of the i-th list element (`psbt.inputs[input_index]`). -/
def updateNth {α : Type} : List α → Nat → (α → α) → List α
  | [], _, _ => []
  | x :: xs, 0, f => f x :: xs
  | x :: xs, n + 1, f => x :: updateNth xs n f

/-- `Psbt.sign_with(key, input_index)` with the externally produced
signature bytes passed in. -/
def psbtSignWith (p : PsbtModel) (i : Nat) (pk sig : List Nat) : PsbtModel :=
  ⟨p.tx, updateNth p.inputs i (fun inp => signInput inp pk sig)⟩

/-- The script-path arm of `Psbt.finalize` for one input: signatures
filtered to the leaf hash, ordered by the reversed tapscript pubkey scan,
then script and control block. -/
def finalizeStack (inp : PsbtInputModel) (script cb : List Nat) : List (List Nat) :=
  finalizeSigList script
    ((inp.tapScriptSigs.filter (fun e => e.1.2 = tapleafHash script 0xC0)).map
      (fun e => (e.1.1, e.2))) ++ [script, cb]

def finalizeInputLeaf (inp : PsbtInputModel) :
    Option (PsbtInputModel × List (List Nat)) :=
  match inp.tapLeafScript with
  | some (script, cb) =>
    if inp.tapScriptSigs = [] then none
    else some ({ inp with finalScriptWitness := some (finalizeStack inp script cb) },
      finalizeStack inp script cb)
  | none => none

/-- One input of `Psbt.finalize`: a (truthy) key-path signature wins,
otherwise the script-path arm; an unfinishable input raises (`none`). -/
def finalizeInput (inp : PsbtInputModel) :
    Option (PsbtInputModel × List (List Nat)) :=
  match inp.tapKeySig with
  | some sig => if sig = [] then finalizeInputLeaf inp else some (inp, [sig])
  | none => finalizeInputLeaf inp

def finalizeInputs : List PsbtInputModel →
    Option (List PsbtInputModel × List (List (List Nat)))
  | [] => some ([], [])
  | inp :: rest =>
    (finalizeInput inp).bind (fun r =>
      (finalizeInputs rest).bind (fun rs => some (r.1 :: rs.1, r.2 :: rs.2)))

/-- `Psbt.finalize`: build each input's witness stack and install the
stacks on the transaction. -/
def psbtFinalize (p : PsbtModel) : Option PsbtModel :=
  (finalizeInputs p.inputs).bind (fun r =>
    some ⟨{ p.tx with witnesses := r.2 }, r.1⟩)

/-- `Psbt.extract_transaction`. -/
def psbtExtract (p : PsbtModel) : Tx := p.tx

theorem psbtFinalize_single (tx : Tx) (inp : PsbtInputModel) (script cb : List Nat)
    (hks : inp.tapKeySig = none) (hls : inp.tapLeafScript = some (script, cb))
    (hss : inp.tapScriptSigs ≠ []) :
    psbtFinalize ⟨tx, [inp]⟩ =
      some ⟨{ tx with witnesses := [finalizeStack inp script cb] },
        [{ inp with finalScriptWitness := some (finalizeStack inp script cb) }]⟩ := by
  unfold psbtFinalize finalizeInputs finalizeInput finalizeInputLeaf
  simp only [hks, hls]
  rw [if_neg hss]
  simp only [finalizeInputs, Option.some_bind]

def aliceXonly : String :=
  "50be5fc44ec580c387bf45df275aaa8b27e2d7716af31f10eeed357d126bb4d3"

def bobXonly : String :=
  "84b5951609b76619a1ce7f48977b4312ebe226987166ef044bfb374ceef63af5"

def alicePk : List Nat := (hexDecode aliceXonly).getD []

def bobPk : List Nat := (hexDecode bobXonly).getD []

/-- The 2-of-2 tapscript of the S4 scenario (`multisig("2of2", 2, [ALICE, BOB])`). -/
def s4Script : List Nat := multisigScript 2 [alicePk, bobPk]

def s4Leaf : LeafDescriptor :=
  ⟨"2of2", 0, "MULTISIG", s4Script, .multisig 2 [alicePk, bobPk], ""⟩

def s4TxidStr : String :=
  "76906b969d65177c5d8af3103e683aa1c02abafa94368d6a6ae1fe78b8aa49dd"

def s4Addr : String := "tb1qr65sfajzw8f4rh8d593zm6wryxcukulygv2209"

/-- The S4 builder: one 2888-sat UTXO, one 2388-sat output, ALICE and BOB as
signers, no explicit sequence. -/
def s4Builder : SpendBuilderState :=
  ⟨false, some s4Leaf, [(s4TxidStr, 0, 2888)], [(s4Addr, 2388)], none,
   [alicePk, bobPk], none, none⟩

def s4TxidLE : List Nat := ((hexDecode s4TxidStr).getD []).reverse

/-- The PSBT after `to_psbt()` and ALICE's `sign_with`, written out. -/
def s4P1 (addrSpk : String → List Nat) (version locktime : Nat)
    (progSpk ikey : List Nat) (mroot : Option (List Nat)) (cb sigA : List Nat) :
    PsbtModel :=
  ⟨⟨version, [⟨s4TxidLE, 0, [], 0xFFFFFFFD⟩], [⟨2388, addrSpk s4Addr⟩], [], locktime⟩,
   [⟨some ((2888 : Int), progSpk), some ikey, mroot, some (s4Script, cb), none,
     [((alicePk, tapleafHash s4Script 0xC0), sigA)], none⟩]⟩

theorem s4TxidLE_length : s4TxidLE.length = 32 := by decide

theorem s4TxidLE_bytes : allBytes s4TxidLE := by unfold allBytes; decide

theorem alicePk_length : alicePk.length = 32 := by decide

theorem alicePk_bytes : allBytes alicePk := by unfold allBytes; decide

theorem s4Script_length_lt : s4Script.length < 2 ^ 32 := by decide

theorem s4Script_bytes : allBytes s4Script := by unfold allBytes; decide

set_option maxRecDepth 20000 in
set_option maxHeartbeats 4000000 in
/-- C1: for the S4 scenario (2-of-2 MULTISIG leaf, UTXO
`76906b…49dd:0` of 2888 sats, one 2388-sat output, ALICE signs, the PSBT is
serialized to base64 and decoded again, BOB signs, finalize, extract), the
extracted transaction has the same txid as the direct
`_build_script_path` build, for every choice of the external
address/program scriptPubKeys, internal key, merkle root, control block,
transaction version/locktime and signer outputs — because the PSBT survives
the base64 round trip exactly and finalization only installs witnesses,
which the txid (double SHA-256 of the non-witness serialization) ignores. -/
theorem s4_psbt_path_matches_direct_build
    (addrSpk : String → List Nat) (progSpk ikey cb sigA sigB : List Nat)
    (mroot : Option (List Nat)) (version locktime : Nat)
    (sigOf : Nat → List Nat → List Nat)
    (hver : version < 2 ^ 32) (hlock : locktime < 2 ^ 32)
    (haddrb : allBytes (addrSpk s4Addr)) (haddrlen : (addrSpk s4Addr).length < 2 ^ 32)
    (hprogb : allBytes progSpk) (hproglen : progSpk.length < 2 ^ 32)
    (hikey : ikey.length = 32) (hikeyb : allBytes ikey)
    (hmroot : ∀ r, mroot = some r → r.length = 32 ∧ allBytes r)
    (hcb : 32 ≤ cb.length) (hcblen : cb.length < 2 ^ 32) (hcbb : allBytes cb)
    (hsigAlen : sigA.length < 2 ^ 32) (hsigAb : allBytes sigA) :
    ((psbtFromBase64 (psbtToBase64 (psbtSignWith
          (toPsbtSP s4Builder s4Leaf addrSpk version locktime progSpk ikey mroot cb)
          0 alicePk sigA))).bind (fun p2 =>
        (psbtFinalize (psbtSignWith p2 0 bobPk sigB)).map
          (fun pf => txidHex (psbtExtract pf)))) =
      some (txidHex (buildScriptPathTxMultisig s4Builder s4Leaf addrSpk version
        locktime s4Script cb sigOf)) := by
  have hp1 : psbtSignWith
      (toPsbtSP s4Builder s4Leaf addrSpk version locktime progSpk ikey mroot cb)
      0 alicePk sigA = s4P1 addrSpk version locktime progSpk ikey mroot cb sigA := rfl
  rw [hp1]
  have hwf : PsbtWF (s4P1 addrSpk version locktime progSpk ikey mroot cb sigA) := by
    refine ⟨⟨hver, hlock, ?_, ?_, ?_, ?_, rfl⟩, rfl, ?_⟩
    · norm_num [s4P1]
    · norm_num [s4P1]
    · intro i hi
      simp only [s4P1, List.mem_singleton] at hi
      subst hi
      exact ⟨s4TxidLE_length, by norm_num, by simp, by norm_num⟩
    · intro o ho
      simp only [s4P1, List.mem_singleton] at ho
      subst ho
      exact ⟨by norm_num, haddrlen⟩
    · intro inp hinp
      simp only [s4P1, List.mem_singleton] at hinp
      subst hinp
      refine ⟨?_, ?_, ?_, ?_, ?_, ?_, ?_, ?_⟩
      · intro a spk h
        simp only [Option.some.injEq, Prod.mk.injEq] at h
        obtain ⟨rfl, rfl⟩ := h
        exact ⟨by norm_num, by norm_num, hproglen⟩
      · intro k h
        simp only [Option.some.injEq] at h
        subst h
        exact hikey
      · intro r h
        exact (hmroot r h).1
      · intro s cbx h
        simp only [Option.some.injEq, Prod.mk.injEq] at h
        obtain ⟨rfl, rfl⟩ := h
        exact ⟨hcb, hcblen, s4Script_length_lt⟩
      · intro s h
        simp at h
      · intro e he
        simp only [List.mem_singleton] at he
        subst he
        exact ⟨alicePk_length, tapleafHash_length _ _, hsigAlen⟩
      · simp
      · intro ws h
        simp at h
  have hbs : PsbtBytes (s4P1 addrSpk version locktime progSpk ikey mroot cb sigA) := by
    refine ⟨⟨?_, ?_⟩, ?_⟩
    · intro i hi
      simp only [s4P1, List.mem_singleton] at hi
      subst hi
      exact ⟨s4TxidLE_bytes, by intro b hb2; simp at hb2⟩
    · intro o ho
      simp only [s4P1, List.mem_singleton] at ho
      subst ho
      exact haddrb
    · intro inp hinp
      simp only [s4P1, List.mem_singleton] at hinp
      subst hinp
      refine ⟨?_, ?_, ?_, ?_, ?_, ?_, ?_⟩
      · intro a spk h
        simp only [Option.some.injEq, Prod.mk.injEq] at h
        obtain ⟨rfl, rfl⟩ := h
        exact hprogb
      · intro k h
        simp only [Option.some.injEq] at h
        subst h
        exact hikeyb
      · intro r h
        exact (hmroot r h).2
      · intro s cbx h
        simp only [Option.some.injEq, Prod.mk.injEq] at h
        obtain ⟨rfl, rfl⟩ := h
        exact ⟨s4Script_bytes, hcbb⟩
      · intro s h
        simp at h
      · intro e he
        simp only [List.mem_singleton] at he
        subst he
        exact ⟨alicePk_bytes, taggedHash_allBytes _ _, hsigAb⟩
      · intro ws h
        simp at h
  rw [psbtFromBase64_psbtToBase64 _ hwf hbs, Option.some_bind]
  have hp2 : psbtSignWith (s4P1 addrSpk version locktime progSpk ikey mroot cb sigA)
      0 bobPk sigB =
      ⟨⟨version, [⟨s4TxidLE, 0, [], 0xFFFFFFFD⟩], [⟨2388, addrSpk s4Addr⟩], [], locktime⟩,
       [⟨some ((2888 : Int), progSpk), some ikey, mroot, some (s4Script, cb), none,
         [((alicePk, tapleafHash s4Script 0xC0), sigA),
          ((bobPk, tapleafHash s4Script 0xC0), sigB)], none⟩]⟩ := rfl
  rw [hp2]
  rw [psbtFinalize_single _ _ s4Script cb rfl rfl (by simp)]
  rfl

theorem s4_psbt_path_matches_direct_build_witness :
    ((psbtFromBase64 (psbtToBase64 (psbtSignWith
          (toPsbtSP s4Builder s4Leaf (fun _ => 0x00 :: 0x14 :: List.replicate 20 7)
            2 0 (0x51 :: 0x20 :: List.replicate 32 9) (List.replicate 32 1) none
            (List.replicate 33 2))
          0 alicePk (List.replicate 64 3)))).bind (fun p2 =>
        (psbtFinalize (psbtSignWith p2 0 bobPk (List.replicate 64 4))).map
          (fun pf => txidHex (psbtExtract pf)))) =
      some (txidHex (buildScriptPathTxMultisig s4Builder s4Leaf
        (fun _ => 0x00 :: 0x14 :: List.replicate 20 7) 2 0 s4Script
        (List.replicate 33 2) (fun _ _ => List.replicate 64 5))) :=
  s4_psbt_path_matches_direct_build
    (fun _ => 0x00 :: 0x14 :: List.replicate 20 7)
    (0x51 :: 0x20 :: List.replicate 32 9) (List.replicate 32 1)
    (List.replicate 33 2) (List.replicate 64 3) (List.replicate 64 4)
    none 2 0 (fun _ _ => List.replicate 64 5)
    (by norm_num) (by norm_num)
    (by unfold allBytes; decide) (by decide)
    (by unfold allBytes; decide) (by decide)
    (by decide) (by unfold allBytes; decide)
    (fun r hr => nomatch hr)
    (by decide) (by decide) (by unfold allBytes; decide)
    (by decide) (by unfold allBytes; decide)
